import Mathlib

/-!
Verification development for the twin-lunch-bot repository (main.go).

The Go program keeps a global map `twinLunches : map[string]string` (the
Pairing Registry), an admin allow-list `twinLunchAdmins`, and persists one
`TwinLunch{User1, User2}` record per pair in Google Datastore under a fixed
parent key.  The `run` loop consumes classified message events and slash
commands; slash commands mutate the registry after the corresponding durable
write, and messages are routed to the sender's twin.

This file shallowly embeds that code: the Go map is modelled as an
association list with distinct keys (a Go map can never hold a duplicate
key), the datastore contents as a list of records (datastore keys are opaque
and only used to delete the record they name, so deletion is modelled as
removal of the first matching record, exactly as the transaction in
`run` finds the first record mentioning `user1` and deletes that key), and
external datastore failures as an explicit boolean saying whether the
datastore call issued by the current command succeeds.
-/

namespace TwinLunchBot

/-- The persisted pair record, `type TwinLunch struct { User1, User2 string }`. -/
structure TwinLunch where
  user1 : String
  user2 : String
deriving DecidableEq, Repr

/-- The in-memory registry `twinLunches map[string]string`, modelled as an
association list (insertion ordered, keys unique in any state reachable by the
program). -/
abbrev Registry := List (String × String)

/-- The datastore contents under the `TwinLunchList` parent key: one record per
pair, in insertion order. -/
abbrev Store := List TwinLunch

/-- The mutable state of the process: the registry plus the durable store. -/
structure State where
  twinLunches : Registry
  store : Store
deriving DecidableEq, Repr

/-- A slash command event as consumed by `run`. -/
structure SlashCommand where
  userID : String
  command : String
  text : String
deriving DecidableEq, Repr

/-- A (classified) message event as consumed by `run`: `filterMessages` has
already checked `BotID` and `ChannelType`. -/
structure MessageEvent where
  user : String
  channel : String
  channelType : String
  botId : String
  text : String
deriving DecidableEq, Repr

/-- Destination of an outbound post: either the direct conversation opened for
a user (`getChannelForUser`) or an explicit channel id. -/
inductive Dest where
  | user (u : String)
  | channel (c : String)
deriving DecidableEq, Repr

/-- An outbound Slack post: destination plus the payload fields
(text, username, icon emoji) passed to `PostMessage`. -/
structure Post where
  dest : Dest
  text : String
  username : String
  icon : String
deriving DecidableEq, Repr

/-! ### Go map operations on the association-list model -/

/-- Go map assignment `m[k] = v`: replace the value if the key is present,
otherwise append a fresh entry. -/
def mapSet (r : Registry) (k v : String) : Registry :=
  if k ∈ r.map Prod.fst then
    r.map (fun p => if p.1 = k then (k, v) else p)
  else
    r ++ [(k, v)]

/-- Go map read `m[k]` (zero value `""` when the key is absent). -/
def mapGet (r : Registry) (k : String) : String :=
  (List.lookup k r).getD ""

/-- Go `delete(m, k)`. -/
def mapDelete (r : Registry) (k : String) : Registry :=
  r.filter (fun p => p.1 ≠ k)

/-! ### The mention regexp

`userRegexp = regexp.MustCompile('<@([^\|]+)\|[^>]+>')` and
`userRegexp.FindAllStringSubmatch(text, -1)`, keeping capture group 1 of each
match.  For this pattern a match is: `<@`, a nonempty run of characters other
than `|` (the capture), `|`, a nonempty run of characters other than `>`, then
`>`; matches are found left to right and do not overlap. -/

/-- Split a character list at the first occurrence of `stop`: returns the
longest prefix free of `stop` and the remaining suffix. -/
def spanNe (stop : Char) : List Char → List Char × List Char
  | [] => ([], [])
  | ch :: cs =>
    if ch = stop then ([], ch :: cs)
    else
      let pr := spanNe stop cs
      (ch :: pr.1, pr.2)

/-- Try to match `<@([^|]+)\|[^>]+>` at the head of the input; on success
return capture group 1 and the input following the match.  `spanNe` always
leaves a remainder that is empty or starts with the stop character, so testing
`head?` against the stop character is exactly "the nonempty run was followed
by the required delimiter". -/
def matchMention : List Char → Option (String × List Char)
  | '<' :: '@' :: rest =>
    let grp := (spanNe '|' rest).1
    let rest1 := (spanNe '|' rest).2
    if grp = [] then none
    else if rest1.head? = some '|' then
      let name := (spanNe '>' rest1.tail).1
      let rest3 := (spanNe '>' rest1.tail).2
      if name = [] then none
      else if rest3.head? = some '>' then some (⟨grp⟩, rest3.tail)
      else none
    else none
  | _ => none

/-- Scan for successive non-overlapping matches, left to right.  The fuel is
the length of the remaining input, which bounds the number of steps since every
step consumes at least one character. -/
def findMentionsAux : Nat → List Char → List String
  | 0, _ => []
  | _ + 1, [] => []
  | fuel + 1, ch :: cs =>
    match matchMention (ch :: cs) with
    | some (u, rest) => u :: findMentionsAux fuel rest
    | none => findMentionsAux fuel cs

/-- `userRegexp.FindAllStringSubmatch(text, -1)` projected to capture group 1
of each match. -/
def findMentions (s : String) : List String :=
  findMentionsAux s.data.length s.data

/-! ### Outbound message construction -/

/-- `forwardTwinLunchMessage`: post the raw text to the twin's direct
conversation with icon `question` and username `Ton Twin Lunch`. -/
def forwardTwinLunchMessage (user text : String) : Post :=
  { dest := Dest.user user, text := text, username := "Ton Twin Lunch", icon := "question" }

/-- `sendBotMessageToUser`: post to the user's direct conversation with icon
`robot_face`, username `Twin Lunch Bot`, and the `_bip bip_ ` prefix. -/
def sendBotMessageToUser (user text : String) : Post :=
  { dest := Dest.user user, text := "_bip bip_ " ++ text,
    username := "Twin Lunch Bot", icon := "robot_face" }

/-- `sendBotMessageToChannel`: same bot branding, explicit channel. -/
def sendBotMessageToChannel (channel text : String) : Post :=
  { dest := Dest.channel channel, text := "_bip bip_ " ++ text,
    username := "Twin Lunch Bot", icon := "robot_face" }

/-! ### The fixed message texts of `run` (apostrophes written `\x27`) -/

def notAuthText : String :=
  "Désolé mais tu n\x27as pas les droits pour administrer les Twin Lunch :no_entry_sign:"

def noTwinText : String :=
  "Désolé tu n\x27as pas de Twin Lunch :crying_cat_face:"

def addNeedTwoText : String :=
  "Tu dois donner deux personnes pour créer un Twin Lunch"

def addSameText : String :=
  "Tu dois donner deux personnes différentes pour créer un Twin Lunch"

def alreadyText (u : String) : String :=
  "<@" ++ u ++ "> a déjà un Twin Lunch"

def onboardingText : String :=
  "Salut ! Ton Twin Lunch a été choisi, tu peux discuter avec lui ou elle dans cette conversation sans révéler ton identité :sunglasses:"

def addConfirmText (u1 u2 : String) : String :=
  "J\x27ai mis en relation <@" ++ u1 ++ "> et <@" ++ u2 ++ "> pour leur Twin Lunch"

def removeNeedTwoText : String :=
  "Tu dois donner deux personnes pour supprimer un Twin Lunch"

def notPairedText (u1 u2 : String) : String :=
  "<@" ++ u1 ++ "> et <@" ++ u2 ++ "> ne sont pas en Twin Lunch ensemble"

def removeConfirmText (u1 u2 : String) : String :=
  "J\x27ai supprimé le Twin Lunch entre <@" ++ u1 ++ "> et <@" ++ u2 ++ ">"

def emptyListText : String :=
  "Il n\x27y a aucun Twin Lunch"

def listHeaderText : String :=
  "Voilà la liste des Twin Lunch :\n\n"

def clearConfirmText : String :=
  "J\x27ai supprimé tous les Twin Lunch :fire:"

/-! ### Event classifier (`filterMessages`) -/

/-- `filterMessages` keeps a message event iff its `BotID` is empty and its
channel type is a one-to-one direct conversation (`slack.TYPE_IM = "im"`). -/
def keepMessage (m : MessageEvent) : Bool :=
  m.botId == "" && m.channelType == "im"

/-! ### Router: the message branch of `run`'s select loop -/

/-- Handling of one classified message event: forward to the twin when the
sender is in the registry, otherwise a "no twin" notice to the message's own
channel.  The returned list holds the outbound actions produced (always
exactly one). -/
def handleMessage (r : Registry) (m : MessageEvent) : List Post :=
  match List.lookup m.user r with
  | some twinLunch => [forwardTwinLunchMessage twinLunch m.text]
  | none => [sendBotMessageToChannel m.channel noTwinText]

/-! ### List rendering (the `/twinlunch-list` branch) -/

/-- The deduplicating walk of the `/twinlunch-list` branch: iterate the map
entries, skip an entry whose key was already listed, otherwise render the pair
and mark both members as listed. -/
def listPairs : List (String × String) → List String → List (String × String)
  | [], _ => []
  | (u1, u2) :: rest, listed =>
    if u1 ∈ listed then listPairs rest listed
    else (u1, u2) :: listPairs rest (u2 :: u1 :: listed)

/-- Rendering of one listed pair: `• <@user1> et <@user2>`. -/
def pairLine (p : String × String) : String :=
  "• <@" ++ p.1 ++ "> et <@" ++ p.2 ++ ">"

/-! ### Durable store operations -/

/-- The delete transaction of the `/twinlunch-remove` branch: run the ancestor
query, take the first record whose `User1` or `User2` equals `u`, delete that
record; `none` when no record matches (`could not find twin lunch in
datastore`, which makes the transaction return an error). -/
def removeRecord (u : String) : Store → Option Store
  | [] => none
  | t :: ts =>
    if t.user1 = u ∨ t.user2 = u then some ts
    else (removeRecord u ts).map (fun ts2 => t :: ts2)

/-! ### Command interpreter: the command branch of `run`'s select loop

`storeOk` models whether the datastore operation issued by this command
(the `Put` during add, the transaction during remove/clear) succeeds at the
infrastructure level; when it is `false` the Go code logs the error and
`continue`s without touching the registry or sending any message. -/

/-- One step of the command branch of `run`: returns the new state and the
outbound posts, in the order the Go code issues them. -/
def runCommand (admins : List String) (storeOk : Bool) (s : State)
    (c : SlashCommand) : State × List Post :=
  if c.userID ∈ admins then
    if c.command = "/twinlunch-add" then
      match findMentions c.text with
      | [user1, user2] =>
        if user1 = user2 then
          (s, [sendBotMessageToUser c.userID addSameText])
        else if (List.lookup user1 s.twinLunches).isSome then
          (s, [sendBotMessageToUser c.userID (alreadyText user1)])
        else if (List.lookup user2 s.twinLunches).isSome then
          (s, [sendBotMessageToUser c.userID (alreadyText user2)])
        else if storeOk then
          ({ twinLunches := mapSet (mapSet s.twinLunches user1 user2) user2 user1,
             store := s.store ++ [⟨user1, user2⟩] },
           [sendBotMessageToUser user1 onboardingText,
            sendBotMessageToUser user2 onboardingText,
            sendBotMessageToUser c.userID (addConfirmText user1 user2)])
        else
          (s, [])
      | _ => (s, [sendBotMessageToUser c.userID addNeedTwoText])
    else if c.command = "/twinlunch-remove" then
      match findMentions c.text with
      | [user1, user2] =>
        if mapGet s.twinLunches user1 ≠ user2 then
          (s, [sendBotMessageToUser c.userID (notPairedText user1 user2)])
        else if storeOk then
          match removeRecord user1 s.store with
          | none => (s, [])
          | some store2 =>
            ({ twinLunches := mapDelete (mapDelete s.twinLunches user1) user2,
               store := store2 },
             [sendBotMessageToUser c.userID (removeConfirmText user1 user2)])
        else
          (s, [])
      | _ => (s, [sendBotMessageToUser c.userID removeNeedTwoText])
    else if c.command = "/twinlunch-list" then
      if s.twinLunches = [] then
        (s, [sendBotMessageToUser c.userID emptyListText])
      else
        (s, [sendBotMessageToUser c.userID
          (listHeaderText ++
            String.intercalate "\n" ((listPairs s.twinLunches []).map pairLine))])
    else if c.command = "/twinlunch-clear" then
      if storeOk then
        ({ twinLunches := [], store := [] },
         [sendBotMessageToUser c.userID clearConfirmText])
      else
        (s, [])
    else
      (s, [])
  else
    (s, [sendBotMessageToUser c.userID notAuthText])

/-! ### Startup load (`loadTwinLunches`) -/

/-- `loadTwinLunches`: starting from the empty global map, insert both
directions of every record returned by `GetAll`. -/
def loadTwinLunches (records : Store) : Registry :=
  records.foldl
    (fun r t => mapSet (mapSet r t.user1 t.user2) t.user2 t.user1) []

/-- Fold a sequence of command events (each with the success flag of its
datastore call) through `runCommand`, starting from a given state. -/
def foldState (admins : List String) (inputs : List (Bool × SlashCommand))
    (s : State) : State :=
  inputs.foldl (fun s p => (runCommand admins p.1 s p.2).1) s

/-! ### Invariants -/

/-- The association list has pairwise distinct keys — every list modelling a
Go `map[string]string` satisfies this. -/
def KeysNodup (r : Registry) : Prop := (r.map Prod.fst).Nodup

/-- No member is paired with itself. -/
def NoSelf (r : Registry) : Prop := ∀ p ∈ r, p.1 ≠ p.2

/-- For every entry `A→B` the entry `B→A` also exists. -/
def Symm (r : Registry) : Prop := ∀ p ∈ r, (p.2, p.1) ∈ r

/-- The Pairing Registry invariant. -/
def Inv (r : Registry) : Prop := KeysNodup r ∧ NoSelf r ∧ Symm r

instance (r : Registry) : Decidable (KeysNodup r) := by
  unfold KeysNodup; infer_instance

instance (r : Registry) : Decidable (NoSelf r) := by
  unfold NoSelf; infer_instance

instance (r : Registry) : Decidable (Symm r) := by
  unfold Symm; infer_instance

instance (r : Registry) : Decidable (Inv r) := by
  unfold Inv; infer_instance

/-- All member identifiers mentioned by the store's records, in order. -/
def usersOf : Store → List String
  | [] => []
  | t :: ts => t.user1 :: t.user2 :: usersOf ts

/-- The durable store invariant: every member occurs in at most one record,
and no record pairs a member with itself (both captured by distinctness of the
flattened member list). -/
def StoreInv (st : Store) : Prop := (usersOf st).Nodup

instance (st : Store) : Decidable (StoreInv st) := by
  unfold StoreInv; infer_instance

/-- Consistency of the registry with the durable store: the registry records
`A→B` exactly when the store holds a record for the pair in one of the two
orientations. -/
def Link (r : Registry) (st : Store) : Prop :=
  ∀ x y : String, (x, y) ∈ r ↔ (TwinLunch.mk x y ∈ st ∨ TwinLunch.mk y x ∈ st)

/-- Full well-formedness of a process state. -/
def GoodState (s : State) : Prop :=
  Inv s.twinLunches ∧ StoreInv s.store ∧ Link s.twinLunches s.store

/-! ### Association-list lemmas -/

theorem lookup_cons (k : String) (p : String × String) (t : Registry) :
    List.lookup k (p :: t) = if k = p.1 then some p.2 else List.lookup k t := by
  obtain ⟨a, b⟩ := p
  by_cases h : k = a
  · subst h; simp [List.lookup]
  · simp [List.lookup, h, beq_false_of_ne h]

theorem lookup_eq_none_iff (k : String) (r : Registry) :
    List.lookup k r = none ↔ k ∉ r.map Prod.fst := by
  induction r with
  | nil => simp
  | cons p t ih =>
    rw [lookup_cons]
    by_cases h : k = p.1
    · simp [h]
    · simp [h, ih]

theorem lookup_mem {k v : String} {r : Registry} (h : List.lookup k r = some v) :
    (k, v) ∈ r := by
  induction r with
  | nil => simp [List.lookup] at h
  | cons p t ih =>
    rw [lookup_cons] at h
    by_cases hk : k = p.1
    · rw [if_pos hk] at h
      have hv := Option.some.inj h
      exact List.mem_cons.mpr (Or.inl (by rw [hk, ← hv]))
    · rw [if_neg hk] at h
      exact List.mem_cons_of_mem _ (ih h)

theorem mem_lookup {k v : String} {r : Registry} (hnd : KeysNodup r)
    (h : (k, v) ∈ r) : List.lookup k r = some v := by
  induction r with
  | nil => simp at h
  | cons p t ih =>
    rw [lookup_cons]
    rcases List.mem_cons.mp h with h1 | h1
    · rw [← h1]; simp
    · have hk : k ≠ p.1 := by
        intro hkp
        have : p.1 ∈ t.map Prod.fst := by
          rw [← hkp]
          exact List.mem_map_of_mem Prod.fst h1
        exact (List.nodup_cons.mp hnd).1 this
      rw [if_neg hk]
      exact ih (List.nodup_cons.mp hnd).2 h1

theorem lookup_append_of_none {k : String} {r : Registry} (l : Registry)
    (h : List.lookup k r = none) :
    List.lookup k (r ++ l) = List.lookup k l := by
  induction r with
  | nil => simp
  | cons p t ih =>
    rw [lookup_cons] at h
    by_cases hk : k = p.1
    · simp [hk] at h
    · rw [if_neg hk] at h
      rw [List.cons_append, lookup_cons, if_neg hk]
      exact ih h

theorem mapSet_of_not_mem {k : String} {r : Registry} (v : String)
    (h : k ∉ r.map Prod.fst) : mapSet r k v = r ++ [(k, v)] := by
  rw [mapSet, if_neg h]

theorem mem_mapDelete {p : String × String} {r : Registry} {k : String} :
    p ∈ mapDelete r k ↔ p ∈ r ∧ p.1 ≠ k := by
  simp [mapDelete, List.mem_filter]

theorem lookup_mapDelete (x k : String) (r : Registry) :
    List.lookup x (mapDelete r k) = if x = k then none else List.lookup x r := by
  induction r with
  | nil => simp [mapDelete]
  | cons p t ih =>
    by_cases hpk : p.1 = k
    · have : mapDelete (p :: t) k = mapDelete t k := by
        simp [mapDelete, hpk]
      rw [this, ih, lookup_cons]
      by_cases hx : x = k
      · simp [hx]
      · rw [if_neg hx, if_neg hx, if_neg (by rw [hpk]; exact hx)]
    · have : mapDelete (p :: t) k = p :: mapDelete t k := by
        simp [mapDelete, hpk]
      rw [this, lookup_cons, lookup_cons, ih]
      by_cases hx : x = p.1
      · have hxk : x ≠ k := by rw [hx]; exact hpk
        rw [if_pos hx, if_neg hxk, if_pos hx]
      · rw [if_neg hx, if_neg hx]

theorem keysNodup_mapDelete {r : Registry} (k : String) (h : KeysNodup r) :
    KeysNodup (mapDelete r k) := by
  unfold KeysNodup at *
  exact List.Nodup.sublist (List.Sublist.map Prod.fst (List.filter_sublist r)) h

theorem lookup_isSome_of_mem_keys {k : String} {r : Registry}
    (h : k ∈ r.map Prod.fst) : (List.lookup k r).isSome := by
  rcases Option.eq_none_or_eq_some (List.lookup k r) with hn | ⟨v, hv⟩
  · exact absurd ((lookup_eq_none_iff k r).mp hn) (by simp [h])
  · simp [hv]

/-! ### Mention-extraction lemmas -/

theorem matchMention_ne_empty_all (l : List Char) :
    ∀ (u : String) (rest : List Char), matchMention l = some (u, rest) → u ≠ "" := by
  intro u rest h
  unfold matchMention at h
  split at h
  · dsimp only at h
    split at h
    · exact absurd h (by simp)
    · split at h
      · split at h
        · exact absurd h (by simp)
        · split at h
          · rw [Option.some.injEq, Prod.mk.injEq] at h
            obtain ⟨h1, _⟩ := h
            subst h1
            intro hemp
            exact absurd (congrArg String.data hemp) (by assumption)
          · exact absurd h (by simp)
      · exact absurd h (by simp)
  · exact absurd h (by simp)

theorem matchMention_ne_empty {l rest : List Char} {u : String}
    (h : matchMention l = some (u, rest)) : u ≠ "" :=
  matchMention_ne_empty_all l u rest h

theorem findMentionsAux_ne_empty :
    ∀ (fuel : Nat) (l : List Char) (u : String),
      u ∈ findMentionsAux fuel l → u ≠ "" := by
  intro fuel
  induction fuel with
  | zero => intro l u h; simp [findMentionsAux] at h
  | succ n ih =>
    intro l u h
    match l with
    | [] => simp [findMentionsAux] at h
    | ch :: cs =>
      rw [findMentionsAux] at h
      rcases hm : matchMention (ch :: cs) with _ | ⟨v, rest⟩
      · rw [hm] at h
        exact ih cs u h
      · rw [hm] at h
        rcases List.mem_cons.mp h with h1 | h1
        · rw [h1]; exact matchMention_ne_empty hm
        · exact ih rest u h1

theorem findMentions_ne_empty {s : String} {u : String}
    (h : u ∈ findMentions s) : u ≠ "" :=
  findMentionsAux_ne_empty _ _ _ h

/-! ### String helpers -/

theorem data_append : ∀ (s t : String), (s ++ t).data = s.data ++ t.data
  | ⟨_⟩, ⟨_⟩ => rfl

theorem head?_append_of_cons {l1 : List Char} {c : Char}
    (h : l1.head? = some c) (l2 : List Char) : (l1 ++ l2).head? = some c := by
  cases l1 with
  | nil => simp at h
  | cons a t => simpa using h

/-- The remove-confirmation text and the not-paired text are never equal,
whatever the two member identifiers: their first characters differ. -/
theorem removeConfirm_ne_notPaired (a b : String) :
    removeConfirmText a b ≠ notPairedText a b := by
  intro h
  have h2 := congrArg String.data h
  rw [removeConfirmText, notPairedText] at h2
  rw [data_append, data_append, data_append, data_append,
      data_append, data_append, data_append, data_append] at h2
  have hl : ("J\x27ai supprimé le Twin Lunch entre <@" : String).data.head? = some 'J' := rfl
  have hr : ("<@" : String).data.head? = some '<' := rfl
  have h3 := congrArg List.head? h2
  rw [List.append_assoc, List.append_assoc, List.append_assoc, List.append_assoc,
      List.append_assoc, List.append_assoc,
      head?_append_of_cons hl, head?_append_of_cons hr] at h3
  simp at h3

/-- Two bot notices to the same user are equal only if their texts are. -/
theorem sendBotMessageToUser_text_inj {u t1 t2 : String}
    (h : sendBotMessageToUser u t1 = sendBotMessageToUser u t2) : t1 = t2 := by
  have h2 : "_bip bip_ " ++ t1 = "_bip bip_ " ++ t2 := congrArg Post.text h
  have h3 := congrArg String.data h2
  rw [data_append, data_append] at h3
  have h4 := List.append_cancel_left h3
  cases t1
  cases t2
  exact congrArg String.mk h4

/-! ### `listPairs` lemmas -/

theorem mem_eq_of_keysNodup {t : Registry} (hnd : KeysNodup t) {k x y : String}
    (hx : (k, x) ∈ t) (hy : (k, y) ∈ t) : x = y := by
  have h1 := mem_lookup hnd hx
  have h2 := mem_lookup hnd hy
  rw [h1] at h2
  exact Option.some.inj h2

theorem listPairs_sound : ∀ (rest : List (String × String)) (listed : List String)
    (p : String × String), p ∈ listPairs rest listed → p ∈ rest ∧ p.1 ∉ listed := by
  intro rest
  induction rest with
  | nil => intro listed p h; simp [listPairs] at h
  | cons q t ih =>
    intro listed p h
    obtain ⟨u, v⟩ := q
    rw [listPairs] at h
    by_cases hu : u ∈ listed
    · rw [if_pos hu] at h
      obtain ⟨h1, h2⟩ := ih listed p h
      exact ⟨List.mem_cons_of_mem _ h1, h2⟩
    · rw [if_neg hu] at h
      rcases List.mem_cons.mp h with h1 | h1
      · subst h1; exact ⟨List.mem_cons_self _ _, hu⟩
      · obtain ⟨h1, h2⟩ := ih _ p h1
        refine ⟨List.mem_cons_of_mem _ h1, fun hc => h2 ?_⟩
        exact List.mem_cons_of_mem _ (List.mem_cons_of_mem _ hc)

theorem listPairs_main : ∀ (rest : List (String × String)) (listed : List String),
    (rest.map Prod.fst).Nodup →
    (∀ p ∈ rest, p.1 ≠ p.2) →
    (∀ p ∈ rest, p.1 ∉ listed → (p.2, p.1) ∈ rest ∧ p.2 ∉ listed) →
    (∀ p ∈ rest, p.1 ∉ listed →
      p ∈ listPairs rest listed ∨ (p.2, p.1) ∈ listPairs rest listed)
    ∧ List.Pairwise (fun p q => p ≠ q ∧ p ≠ (q.2, q.1)) (listPairs rest listed) := by
  intro rest
  induction rest with
  | nil =>
    intro listed _ _ _
    constructor
    · intro p hp; simp at hp
    · simp [listPairs]
  | cons q t ih =>
    intro listed h1 h2 h3
    obtain ⟨u, v⟩ := q
    have h1u : u ∉ t.map Prod.fst := by
      have := List.nodup_cons.mp h1
      simpa using this.1
    have h1t : (t.map Prod.fst).Nodup := (List.nodup_cons.mp h1).2
    by_cases hu : u ∈ listed
    · rw [listPairs, if_pos hu]
      have h3t : ∀ p ∈ t, p.1 ∉ listed → (p.2, p.1) ∈ t ∧ p.2 ∉ listed := by
        intro p hp hp1
        obtain ⟨hs, hs2⟩ := h3 p (List.mem_cons_of_mem _ hp) hp1
        rcases List.mem_cons.mp hs with he | he
        · exfalso
          have : p.2 = u := congrArg Prod.fst he
          rw [this] at hs2
          exact hs2 hu
        · exact ⟨he, hs2⟩
      obtain ⟨ihc, ihp⟩ := ih listed h1t (fun p hp => h2 p (List.mem_cons_of_mem _ hp)) h3t
      refine ⟨?_, ihp⟩
      intro p hp hp1
      rcases List.mem_cons.mp hp with he | he
      · exfalso
        have : p.1 = u := congrArg Prod.fst he
        rw [this] at hp1
        exact hp1 hu
      · exact ihc p he hp1
    · have huv : u ≠ v := h2 (u, v) (List.mem_cons_self _ _)
      have hvu : (v, u) ∈ t ∧ v ∉ listed := by
        obtain ⟨hs, hs2⟩ := h3 (u, v) (List.mem_cons_self _ _) hu
        rcases List.mem_cons.mp hs with he | he
        · have hvequ : v = u := congrArg Prod.fst he
          exact absurd hvequ.symm huv
        · exact ⟨he, hs2⟩
      rw [listPairs, if_neg hu]
      have h3t : ∀ p ∈ t, p.1 ∉ v :: u :: listed →
          (p.2, p.1) ∈ t ∧ p.2 ∉ v :: u :: listed := by
        intro p hp hp1
        have hp1v : p.1 ≠ v := fun hc => hp1 (by rw [hc]; exact List.mem_cons_self _ _)
        have hp1u : p.1 ≠ u := fun hc =>
          hp1 (by rw [hc]; exact List.mem_cons_of_mem _ (List.mem_cons_self _ _))
        have hp1l : p.1 ∉ listed := fun hc =>
          hp1 (List.mem_cons_of_mem _ (List.mem_cons_of_mem _ hc))
        obtain ⟨hs, hs2⟩ := h3 p (List.mem_cons_of_mem _ hp) hp1l
        have hst : (p.2, p.1) ∈ t := by
          rcases List.mem_cons.mp hs with he | he
          · exact absurd (congrArg Prod.snd he) hp1v
          · exact he
        refine ⟨hst, ?_⟩
        intro hc
        rcases List.mem_cons.mp hc with he | he
        · -- p.2 = v : two entries with key v in t force p.1 = u
          have : (v, p.1) ∈ t := by rw [← he]; exact hst
          exact hp1u (mem_eq_of_keysNodup h1t this hvu.1)
        · rcases List.mem_cons.mp he with he2 | he2
          · -- p.2 = u : contradicts u ∉ keys t
            apply h1u
            have : (u, p.1) ∈ t := by rw [← he2]; exact hst
            exact List.mem_map_of_mem Prod.fst this
          · exact hs2 he2
      obtain ⟨ihc, ihp⟩ :=
        ih (v :: u :: listed) h1t (fun p hp => h2 p (List.mem_cons_of_mem _ hp)) h3t
      constructor
      · intro p hp hp1
        rcases List.mem_cons.mp hp with he | he
        · left; rw [he]; exact List.mem_cons_self _ _
        · by_cases hp1m : p.1 ∈ v :: u :: listed
          · rcases List.mem_cons.mp hp1m with he2 | he2
            · -- p.1 = v forces p = (v, u), whose swap is the head
              have hpvu : p = (v, u) := by
                have hpm : (v, p.2) ∈ t := by
                  have : p = (p.1, p.2) := rfl
                  rw [this, he2] at he
                  exact he
                have : p.2 = u := mem_eq_of_keysNodup h1t hpm hvu.1
                have hp' : p = (p.1, p.2) := rfl
                rw [hp', he2, this]
              right
              rw [hpvu]
              exact List.mem_cons_self _ _
            · rcases List.mem_cons.mp he2 with he3 | he3
              · exfalso
                apply h1u
                have : (u, p.2) ∈ t := by
                  have hp' : p = (p.1, p.2) := rfl
                  rw [hp', he3] at he
                  exact he
                exact List.mem_map_of_mem Prod.fst this
              · exact absurd he3 hp1
          · rcases ihc p he hp1m with hc | hc
            · left; exact List.mem_cons_of_mem _ hc
            · right; exact List.mem_cons_of_mem _ hc
      · refine List.Pairwise.cons ?_ ihp
        intro q hq
        obtain ⟨_, hq1⟩ := listPairs_sound t (v :: u :: listed) q hq
        have hq1v : q.1 ≠ v := fun hc => hq1 (by rw [hc]; exact List.mem_cons_self _ _)
        have hq1u : q.1 ≠ u := fun hc =>
          hq1 (by rw [hc]; exact List.mem_cons_of_mem _ (List.mem_cons_self _ _))
        constructor
        · intro hc
          exact hq1u (congrArg Prod.fst hc).symm
        · intro hc
          exact hq1v (congrArg Prod.snd hc).symm

/-- Under the registry invariant, the rendered list contains a given unordered
pair exactly when the registry records it. -/
theorem mem_listPairs_iff {r : Registry} (hInv : Inv r) (x y : String) :
    ((x, y) ∈ listPairs r [] ∨ (y, x) ∈ listPairs r []) ↔ (x, y) ∈ r := by
  obtain ⟨hnd, hns, hsym⟩ := hInv
  constructor
  · intro h
    rcases h with h | h
    · exact (listPairs_sound r [] (x, y) h).1
    · exact hsym _ ((listPairs_sound r [] (y, x) h).1)
  · intro h
    have h3 : ∀ p ∈ r, p.1 ∉ ([] : List String) → (p.2, p.1) ∈ r ∧ p.2 ∉ ([] : List String) := by
      intro p hp _
      exact ⟨hsym p hp, by simp⟩
    obtain ⟨hc, _⟩ := listPairs_main r [] hnd hns h3
    exact hc (x, y) h (by simp)

/-- Under the registry invariant, no unordered pair is rendered twice. -/
theorem listPairs_pairwise {r : Registry} (hInv : Inv r) :
    List.Pairwise (fun p q => p ≠ q ∧ p ≠ (q.2, q.1)) (listPairs r []) := by
  obtain ⟨hnd, hns, hsym⟩ := hInv
  have h3 : ∀ p ∈ r, p.1 ∉ ([] : List String) → (p.2, p.1) ∈ r ∧ p.2 ∉ ([] : List String) := by
    intro p hp _
    exact ⟨hsym p hp, by simp⟩
  exact (listPairs_main r [] hnd hns h3).2

/-- Appending a freshly created pair (both directions) to the registry appends
exactly one line to the rendered list. -/
theorem listPairs_append (a b : String) :
    ∀ (rest : List (String × String)) (listed : List String),
      a ∉ listed → b ∉ listed → a ≠ b →
      (∀ p ∈ rest, p.1 ≠ a ∧ p.2 ≠ a ∧ p.1 ≠ b ∧ p.2 ≠ b) →
      listPairs (rest ++ [(a, b), (b, a)]) listed = listPairs rest listed ++ [(a, b)] := by
  intro rest
  induction rest with
  | nil =>
    intro listed ha hb hab _
    have hbmem : b ∈ b :: a :: listed := List.mem_cons_self _ _
    simp [listPairs, ha, hbmem]
  | cons q t ih =>
    intro listed ha hb hab hfresh
    obtain ⟨u, v⟩ := q
    have hq := hfresh (u, v) (List.mem_cons_self _ _)
    by_cases hu : u ∈ listed
    · rw [List.cons_append, listPairs, if_pos hu, listPairs, if_pos hu]
      exact ih listed ha hb hab (fun p hp => hfresh p (List.mem_cons_of_mem _ hp))
    · rw [List.cons_append, listPairs, if_neg hu, listPairs, if_neg hu, List.cons_append]
      congr 1
      have ha2 : a ∉ v :: u :: listed := by
        intro hc
        rcases List.mem_cons.mp hc with he | he
        · exact hq.2.1 he.symm
        · rcases List.mem_cons.mp he with he2 | he2
          · exact hq.1 he2.symm
          · exact ha he2
      have hb2 : b ∉ v :: u :: listed := by
        intro hc
        rcases List.mem_cons.mp hc with he | he
        · exact hq.2.2.2 he.symm
        · rcases List.mem_cons.mp he with he2 | he2
          · exact hq.2.2.1 he2.symm
          · exact hb he2
      exact ih _ ha2 hb2 hab (fun p hp => hfresh p (List.mem_cons_of_mem _ hp))

/-! ### Store lemmas -/

theorem usersOf_append : ∀ (s1 s2 : Store), usersOf (s1 ++ s2) = usersOf s1 ++ usersOf s2 := by
  intro s1 s2
  induction s1 with
  | nil => simp [usersOf]
  | cons t ts ih => rw [List.cons_append, usersOf, usersOf, ih, List.cons_append, List.cons_append]

theorem mem_usersOf {u : String} : ∀ {st : Store},
    u ∈ usersOf st ↔ ∃ t ∈ st, t.user1 = u ∨ t.user2 = u := by
  intro st
  induction st with
  | nil => simp [usersOf]
  | cons t ts ih =>
    rw [usersOf]
    constructor
    · intro h
      rcases List.mem_cons.mp h with he | he
      · exact ⟨t, List.mem_cons_self _ _, Or.inl he.symm⟩
      · rcases List.mem_cons.mp he with he2 | he2
        · exact ⟨t, List.mem_cons_self _ _, Or.inr he2.symm⟩
        · obtain ⟨w, hw, hm⟩ := ih.mp he2
          exact ⟨w, List.mem_cons_of_mem _ hw, hm⟩
    · rintro ⟨w, hw, hm⟩
      rcases List.mem_cons.mp hw with he | he
      · subst he
        rcases hm with hm | hm
        · rw [hm]; exact List.mem_cons_self _ _
        · rw [hm]; exact List.mem_cons_of_mem _ (List.mem_cons_self _ _)
      · exact List.mem_cons_of_mem _ (List.mem_cons_of_mem _ (ih.mpr ⟨w, he, hm⟩))

theorem storeInv_mem_ne {st : Store} (h : StoreInv st) {t : TwinLunch} (ht : t ∈ st) :
    t.user1 ≠ t.user2 := by
  induction st with
  | nil => simp at ht
  | cons w ws ih =>
    unfold StoreInv at h
    rw [usersOf] at h
    rcases List.mem_cons.mp ht with he | he
    · subst he
      intro hc
      exact (List.nodup_cons.mp h).1 (by rw [hc]; exact List.mem_cons_self _ _)
    · exact ih (List.nodup_cons.mp (List.nodup_cons.mp h).2).2 he

theorem removeRecord_eq_none_iff (u : String) : ∀ (st : Store),
    removeRecord u st = none ↔ ∀ t ∈ st, ¬(t.user1 = u ∨ t.user2 = u) := by
  intro st
  induction st with
  | nil => simp [removeRecord]
  | cons t ts ih =>
    rw [removeRecord]
    by_cases hm : t.user1 = u ∨ t.user2 = u
    · rw [if_pos hm]
      simp only [reduceCtorEq, false_iff]
      intro hall
      exact hall t (List.mem_cons_self _ _) hm
    · rw [if_neg hm]
      constructor
      · intro h w hw
        rcases List.mem_cons.mp hw with he | he
        · rw [he]; exact hm
        · rcases ho : removeRecord u ts with _ | ts2
          · exact (ih.mp ho) w he
          · rw [ho] at h; simp at h
      · intro hall
        have : removeRecord u ts = none :=
          ih.mpr (fun w hw => hall w (List.mem_cons_of_mem _ hw))
        rw [this]
        rfl

theorem removeRecord_some (u : String) : ∀ (st st2 : Store),
    removeRecord u st = some st2 →
    ∃ pre rec post, st = pre ++ rec :: post ∧ st2 = pre ++ post ∧
      (rec.user1 = u ∨ rec.user2 = u) := by
  intro st
  induction st with
  | nil => intro st2 h; simp [removeRecord] at h
  | cons t ts ih =>
    intro st2 h
    rw [removeRecord] at h
    by_cases hm : t.user1 = u ∨ t.user2 = u
    · rw [if_pos hm] at h
      exact ⟨[], t, ts, by simp, by simpa using (Option.some.inj h).symm, hm⟩
    · rw [if_neg hm] at h
      rcases ho : removeRecord u ts with _ | ts2
      · rw [ho] at h; simp at h
      · rw [ho] at h
        simp only [Option.map_some', Option.some.injEq] at h
        obtain ⟨pre, rec, post, h1, h2, h3⟩ := ih ts2 ho
        exact ⟨t :: pre, rec, post, by rw [List.cons_append, h1],
               by rw [← h, h2, List.cons_append], h3⟩

theorem removeRecord_length (u : String) : ∀ (st st2 : Store),
    removeRecord u st = some st2 → st2.length + 1 = st.length := by
  intro st
  induction st with
  | nil => intro st2 h; simp [removeRecord] at h
  | cons t ts ih =>
    intro st2 h
    rw [removeRecord] at h
    by_cases hm : t.user1 = u ∨ t.user2 = u
    · rw [if_pos hm] at h
      rw [← Option.some.inj h]
      simp
    · rw [if_neg hm] at h
      rcases ho : removeRecord u ts with _ | ts2
      · rw [ho] at h; simp at h
      · rw [ho] at h
        simp only [Option.map_some', Option.some.injEq] at h
        have hlen := ih ts2 ho
        rw [← h]
        simp only [List.length_cons]
        omega

/-- In a store satisfying the invariant, decomposed around a record mentioning
`u`, no other record mentions `u`. -/
theorem unique_mention {pre post : Store} {rec : TwinLunch} {u : String}
    (hS : StoreInv (pre ++ rec :: post))
    (hrec : rec.user1 = u ∨ rec.user2 = u) :
    ∀ t : TwinLunch, t ∈ pre ∨ t ∈ post → ¬(t.user1 = u ∨ t.user2 = u) := by
  intro t ht hm
  unfold StoreInv at hS
  rw [usersOf_append, usersOf] at hS
  have hu_rec : u ∈ rec.user1 :: rec.user2 :: usersOf post := by
    rcases hrec with h | h
    · rw [← h]; exact List.mem_cons_self _ _
    · rw [← h]; exact List.mem_cons_of_mem _ (List.mem_cons_self _ _)
  rcases ht with ht | ht
  · -- t before rec : u would occur both in usersOf pre and after it
    have hu_pre : u ∈ usersOf pre := mem_usersOf.mpr ⟨t, ht, hm⟩
    have hdisj := List.disjoint_of_nodup_append hS
    exact hdisj hu_pre hu_rec
  · -- t after rec : u would occur both in rec and in usersOf post
    have hu_post : u ∈ usersOf post := mem_usersOf.mpr ⟨t, ht, hm⟩
    have hnd2 : (rec.user1 :: rec.user2 :: usersOf post).Nodup :=
      List.Nodup.of_append_right hS
    rcases hrec with h | h
    · exact (List.nodup_cons.mp hnd2).1 (by rw [h]; exact List.mem_cons_of_mem _ hu_post)
    · exact (List.nodup_cons.mp (List.nodup_cons.mp hnd2).2).1 (by rw [h]; exact hu_post)

/-- Both orientations of every stored record are present in any registry
linked to the store. -/
theorem link_mem_store {r : Registry} {st : Store} (hL : Link r st)
    {t : TwinLunch} (ht : t ∈ st) :
    (t.user1, t.user2) ∈ r ∧ (t.user2, t.user1) ∈ r := by
  constructor
  · exact (hL t.user1 t.user2).mpr (Or.inl ht)
  · exact (hL t.user2 t.user1).mpr (Or.inr ht)

/-- The registry obtained by inserting both directions of every record, in
order. -/
def pairsOfStore : Store → Registry
  | [] => []
  | t :: ts => (t.user1, t.user2) :: (t.user2, t.user1) :: pairsOfStore ts

theorem mem_pairsOfStore {x y : String} : ∀ {st : Store},
    (x, y) ∈ pairsOfStore st ↔ (TwinLunch.mk x y ∈ st ∨ TwinLunch.mk y x ∈ st) := by
  intro st
  induction st with
  | nil => simp [pairsOfStore]
  | cons t ts ih =>
    rw [pairsOfStore]
    simp only [List.mem_cons, Prod.mk.injEq, ih]
    constructor
    · rintro (⟨h1, h2⟩ | ⟨h1, h2⟩ | h | h)
      · left; left
        have : TwinLunch.mk x y = t := by
          cases t
          simp_all
        rw [this]
      · right; left
        have : TwinLunch.mk y x = t := by
          cases t
          simp_all
        rw [this]
      · left; right; exact h
      · right; right; exact h
    · rintro ((h | h) | h | h)
      · left
        rw [← h]
        exact ⟨rfl, rfl⟩
      · right; right; left; exact h
      · right; left
        rw [← h]
        exact ⟨rfl, rfl⟩
      · right; right; right; exact h

theorem keys_pairsOfStore : ∀ (st : Store),
    (pairsOfStore st).map Prod.fst = usersOf st := by
  intro st
  induction st with
  | nil => rfl
  | cons t ts ih => rw [pairsOfStore, usersOf, List.map_cons, List.map_cons, ih]

theorem inv_pairsOfStore {st : Store} (hS : StoreInv st) : Inv (pairsOfStore st) := by
  refine ⟨?_, ?_, ?_⟩
  · unfold KeysNodup
    rw [keys_pairsOfStore]
    exact hS
  · intro p hp
    obtain ⟨x, y⟩ := p
    rcases mem_pairsOfStore.mp hp with h | h
    · exact fun hc => storeInv_mem_ne hS h (by simpa using hc)
    · exact fun hc => storeInv_mem_ne hS h (by simpa using hc.symm)
  · intro p hp
    obtain ⟨x, y⟩ := p
    exact mem_pairsOfStore.mpr (Or.symm (mem_pairsOfStore.mp hp))

theorem link_pairsOfStore (st : Store) : Link (pairsOfStore st) st :=
  fun _ _ => mem_pairsOfStore

theorem load_aux : ∀ (records : Store) (r : Registry),
    (usersOf records).Nodup →
    (∀ u ∈ usersOf records, u ∉ r.map Prod.fst) →
    records.foldl (fun r t => mapSet (mapSet r t.user1 t.user2) t.user2 t.user1) r
      = r ++ pairsOfStore records := by
  intro records
  induction records with
  | nil => intro r _ _; simp [pairsOfStore]
  | cons t ts ih =>
    intro r hnd hfresh
    rw [usersOf] at hnd hfresh
    have h1 : t.user1 ∉ r.map Prod.fst := hfresh t.user1 (List.mem_cons_self _ _)
    have h12 : t.user1 ≠ t.user2 := fun hc => (List.nodup_cons.mp hnd).1
      (by rw [hc]; exact List.mem_cons_self _ _)
    have h2 : t.user2 ∉ (r ++ [(t.user1, t.user2)]).map Prod.fst := by
      rw [List.map_append]
      intro hc
      rcases List.mem_append.mp hc with he | he
      · exact hfresh t.user2 (List.mem_cons_of_mem _ (List.mem_cons_self _ _)) he
      · simp at he
        exact h12 he.symm
    rw [List.foldl_cons, mapSet_of_not_mem _ h1, mapSet_of_not_mem _ h2,
        List.append_assoc]
    have hnd2 : (usersOf ts).Nodup := (List.nodup_cons.mp (List.nodup_cons.mp hnd).2).2
    have hfresh2 : ∀ u ∈ usersOf ts,
        u ∉ (r ++ ([(t.user1, t.user2)] ++ [(t.user2, t.user1)])).map Prod.fst := by
      intro u hu hc
      rw [List.map_append] at hc
      rcases List.mem_append.mp hc with he | he
      · exact hfresh u (List.mem_cons_of_mem _ (List.mem_cons_of_mem _ hu)) he
      · simp at he
        rcases he with he | he
        · exact (List.nodup_cons.mp hnd).1 (by rw [← he]; exact List.mem_cons_of_mem _ hu)
        · exact (List.nodup_cons.mp (List.nodup_cons.mp hnd).2).1 (by rw [← he]; exact hu)
    rw [ih _ hnd2 hfresh2, List.append_assoc]
    rfl

/-- With a well-formed store, the startup load produces exactly both
directions of every record, in order. -/
theorem loadTwinLunches_eq {st : Store} (hS : StoreInv st) :
    loadTwinLunches st = pairsOfStore st := by
  unfold loadTwinLunches
  rw [load_aux st [] hS (by simp)]
  rfl

/-! ### Mutation lemmas: add -/

theorem registry_add_eq {r : Registry} {a b : String} (ha : List.lookup a r = none)
    (hb : List.lookup b r = none) (hab : a ≠ b) :
    mapSet (mapSet r a b) b a = r ++ [(a, b), (b, a)] := by
  have ha2 : a ∉ r.map Prod.fst := (lookup_eq_none_iff a r).mp ha
  have hb2 : b ∉ r.map Prod.fst := (lookup_eq_none_iff b r).mp hb
  rw [mapSet_of_not_mem b ha2]
  have hb3 : b ∉ (r ++ [(a, b)]).map Prod.fst := by
    rw [List.map_append]
    intro hc
    rcases List.mem_append.mp hc with he | he
    · exact hb2 he
    · simp at he
      exact hab he.symm
  rw [mapSet_of_not_mem a hb3, List.append_assoc]
  rfl

theorem inv_add {r : Registry} {a b : String} (hInv : Inv r) (hab : a ≠ b)
    (ha : List.lookup a r = none) (hb : List.lookup b r = none) :
    Inv (r ++ [(a, b), (b, a)]) := by
  obtain ⟨hnd, hns, hsym⟩ := hInv
  have ha2 : a ∉ r.map Prod.fst := (lookup_eq_none_iff a r).mp ha
  have hb2 : b ∉ r.map Prod.fst := (lookup_eq_none_iff b r).mp hb
  refine ⟨?_, ?_, ?_⟩
  · unfold KeysNodup
    rw [List.map_append]
    rw [List.nodup_append]
    refine ⟨hnd, by simp [hab], ?_⟩
    intro x hx hx2
    simp at hx2
    rcases hx2 with he | he
    · rw [he] at hx; exact ha2 hx
    · rw [he] at hx; exact hb2 hx
  · intro p hp
    rcases List.mem_append.mp hp with he | he
    · exact hns p he
    · rcases List.mem_cons.mp he with he2 | he2
      · rw [he2]; exact hab
      · simp at he2
        rw [he2]
        exact hab.symm
  · intro p hp
    rcases List.mem_append.mp hp with he | he
    · exact List.mem_append.mpr (Or.inl (hsym p he))
    · rcases List.mem_cons.mp he with he2 | he2
      · rw [he2]
        exact List.mem_append.mpr (Or.inr (by simp))
      · simp at he2
        rw [he2]
        exact List.mem_append.mpr (Or.inr (by simp))

theorem storeInv_add {r : Registry} {st : Store} {a b : String}
    (hS : StoreInv st) (hL : Link r st)
    (ha : List.lookup a r = none) (hb : List.lookup b r = none) (hab : a ≠ b) :
    StoreInv (st ++ [⟨a, b⟩]) := by
  unfold StoreInv
  rw [usersOf_append]
  have hfresh : ∀ u : String, List.lookup u r = none → u ∉ usersOf st := by
    intro u hu hc
    obtain ⟨t, ht, hm⟩ := mem_usersOf.mp hc
    obtain ⟨m1, m2⟩ := link_mem_store hL ht
    rcases hm with hm | hm
    · exact (lookup_eq_none_iff u r).mp hu (by rw [← hm]; exact List.mem_map_of_mem Prod.fst m1)
    · exact (lookup_eq_none_iff u r).mp hu (by rw [← hm]; exact List.mem_map_of_mem Prod.fst m2)
  rw [List.nodup_append]
  refine ⟨hS, ?_, ?_⟩
  · show ((⟨a, b⟩ : TwinLunch).user1 :: (⟨a, b⟩ : TwinLunch).user2 :: usersOf []).Nodup
    simp [usersOf, hab]
  · intro x hx hx2
    show False
    have hx2' : x = a ∨ x = b := by
      simpa [usersOf] using hx2
    rcases hx2' with he | he
    · rw [he] at hx; exact hfresh a ha hx
    · rw [he] at hx; exact hfresh b hb hx

theorem link_add {r : Registry} {st : Store} (a b : String) (hL : Link r st) :
    Link (r ++ [(a, b), (b, a)]) (st ++ [⟨a, b⟩]) := by
  intro x y
  have hmk1 : (TwinLunch.mk x y = TwinLunch.mk a b) ↔ (x = a ∧ y = b) := by
    simp [TwinLunch.mk.injEq]
  have hmk2 : (TwinLunch.mk y x = TwinLunch.mk a b) ↔ (y = a ∧ x = b) := by
    simp [TwinLunch.mk.injEq]
  simp only [List.mem_append, List.mem_cons, List.mem_singleton, Prod.mk.injEq,
    List.not_mem_nil, or_false, hL x y, hmk1, hmk2]
  tauto

/-! ### Mutation lemmas: remove -/

theorem mem_double_delete {r : Registry} {a b : String} (p : String × String) :
    p ∈ mapDelete (mapDelete r a) b ↔ p ∈ r ∧ p.1 ≠ a ∧ p.1 ≠ b := by
  rw [mem_mapDelete, mem_mapDelete]
  tauto

theorem snd_ne_of_inv {r : Registry} (hInv : Inv r) {x y a b : String}
    (hxy : (x, y) ∈ r) (hab : (a, b) ∈ r) (hxa : x ≠ a) (hxb : x ≠ b) :
    y ≠ a ∧ y ≠ b := by
  obtain ⟨hnd, hns, hsym⟩ := hInv
  have hyx : (y, x) ∈ r := hsym _ hxy
  constructor
  · intro hc
    rw [hc] at hyx
    exact hxb (mem_eq_of_keysNodup hnd hyx hab)
  · intro hc
    rw [hc] at hyx
    have hba : (b, a) ∈ r := hsym _ hab
    exact hxa (mem_eq_of_keysNodup hnd hyx hba)

theorem inv_remove {r : Registry} {a b : String} (hInv : Inv r) (hab : (a, b) ∈ r) :
    Inv (mapDelete (mapDelete r a) b) := by
  obtain ⟨hnd, hns, hsym⟩ := hInv
  refine ⟨keysNodup_mapDelete _ (keysNodup_mapDelete _ hnd), ?_, ?_⟩
  · intro p hp
    exact hns p ((mem_double_delete p).mp hp).1
  · intro p hp
    obtain ⟨hpr, hp1a, hp1b⟩ := (mem_double_delete p).mp hp
    obtain ⟨hy1, hy2⟩ := snd_ne_of_inv ⟨hnd, hns, hsym⟩ hpr hab hp1a hp1b
    exact (mem_double_delete _).mpr ⟨hsym p hpr, hy1, hy2⟩

theorem remove_good {r : Registry} {st : Store} {a b : String} {st2 : Store}
    (hInv : Inv r) (hS : StoreInv st) (hL : Link r st)
    (hlook : List.lookup a r = some b)
    (hrr : removeRecord a st = some st2) :
    GoodState ⟨mapDelete (mapDelete r a) b, st2⟩ := by
  have hab_mem : (a, b) ∈ r := lookup_mem hlook
  have hba_mem : (b, a) ∈ r := hInv.2.2 _ hab_mem
  have hab : a ≠ b := hInv.2.1 _ hab_mem
  obtain ⟨pre, rec, post, hst, hst2, hrecm⟩ := removeRecord_some a st st2 hrr
  subst hst
  subst hst2
  have huniq := unique_mention hS hrecm
  have hW : TwinLunch.mk a b ∈ pre ++ rec :: post ∨ TwinLunch.mk b a ∈ pre ++ rec :: post :=
    (hL a b).mp hab_mem
  have hrec_ab : rec = TwinLunch.mk a b ∨ rec = TwinLunch.mk b a := by
    rcases hW with hW | hW
    · rcases List.mem_append.mp hW with he | he
      · exact absurd (Or.inl rfl) (huniq _ (Or.inl he))
      · rcases List.mem_cons.mp he with he2 | he2
        · exact Or.inl he2.symm
        · exact absurd (Or.inl rfl) (huniq _ (Or.inr he2))
    · rcases List.mem_append.mp hW with he | he
      · exact absurd (Or.inr rfl) (huniq _ (Or.inl he))
      · rcases List.mem_cons.mp he with he2 | he2
        · exact Or.inr he2.symm
        · exact absurd (Or.inr rfl) (huniq _ (Or.inr he2))
  have hrecb : rec.user1 = b ∨ rec.user2 = b := by
    rcases hrec_ab with h | h
    · rw [h]; exact Or.inr rfl
    · rw [h]; exact Or.inl rfl
  have huniqb := unique_mention hS hrecb
  refine ⟨inv_remove hInv hab_mem, ?_, ?_⟩
  · show StoreInv (pre ++ post)
    unfold StoreInv at hS ⊢
    rw [usersOf_append] at hS ⊢
    rw [usersOf] at hS
    refine List.Nodup.sublist ?_ hS
    refine List.Sublist.append_left ?_ _
    exact (List.sublist_cons_self _ _).trans (List.sublist_cons_self _ _)
  · intro x y
    constructor
    · intro hmem
      obtain ⟨hxyr, hx1a, hx1b⟩ := (mem_double_delete _).mp hmem
      obtain ⟨hy1, hy2⟩ := snd_ne_of_inv hInv hxyr hab_mem hx1a hx1b
      rcases (hL x y).mp hxyr with hw | hw
      · left
        have hne : TwinLunch.mk x y ≠ rec := by
          intro hc
          rcases hrec_ab with h | h
          · rw [h] at hc
            exact hx1a (congrArg TwinLunch.user1 hc)
          · rw [h] at hc
            exact hx1b (congrArg TwinLunch.user1 hc)
        rcases List.mem_append.mp hw with he | he
        · exact List.mem_append.mpr (Or.inl he)
        · rcases List.mem_cons.mp he with he2 | he2
          · exact absurd he2 hne
          · exact List.mem_append.mpr (Or.inr he2)
      · right
        have hne : TwinLunch.mk y x ≠ rec := by
          intro hc
          rcases hrec_ab with h | h
          · rw [h] at hc
            exact hy1 (congrArg TwinLunch.user1 hc)
          · rw [h] at hc
            exact hy2 (congrArg TwinLunch.user1 hc)
        rcases List.mem_append.mp hw with he | he
        · exact List.mem_append.mpr (Or.inl he)
        · rcases List.mem_cons.mp he with he2 | he2
          · exact absurd he2 hne
          · exact List.mem_append.mpr (Or.inr he2)
    · intro hmem
      rcases hmem with hw | hw
      · have hw_or : TwinLunch.mk x y ∈ pre ∨ TwinLunch.mk x y ∈ post := List.mem_append.mp hw
        have hnma := huniq _ hw_or
        have hnmb := huniqb _ hw_or
        have hxa : x ≠ a := fun hc => hnma (Or.inl hc)
        have hxb : x ≠ b := fun hc => hnmb (Or.inl hc)
        have hst_mem : TwinLunch.mk x y ∈ pre ++ rec :: post := by
          rcases hw_or with he | he
          · exact List.mem_append.mpr (Or.inl he)
          · exact List.mem_append.mpr (Or.inr (List.mem_cons_of_mem _ he))
        exact (mem_double_delete _).mpr ⟨(hL x y).mpr (Or.inl hst_mem), hxa, hxb⟩
      · have hw_or : TwinLunch.mk y x ∈ pre ∨ TwinLunch.mk y x ∈ post := List.mem_append.mp hw
        have hnma := huniq _ hw_or
        have hnmb := huniqb _ hw_or
        have hxa : x ≠ a := fun hc => hnma (Or.inr hc)
        have hxb : x ≠ b := fun hc => hnmb (Or.inr hc)
        have hst_mem : TwinLunch.mk y x ∈ pre ++ rec :: post := by
          rcases hw_or with he | he
          · exact List.mem_append.mpr (Or.inl he)
          · exact List.mem_append.mpr (Or.inr (List.mem_cons_of_mem _ he))
        exact (mem_double_delete _).mpr ⟨(hL x y).mpr (Or.inr hst_mem), hxa, hxb⟩

/-! ### Mutation lemmas: clear and startup -/

theorem good_empty : GoodState ⟨[], []⟩ := by
  refine ⟨⟨?_, ?_, ?_⟩, ?_, ?_⟩ <;> simp [KeysNodup, NoSelf, Symm, StoreInv, usersOf, Link]

theorem good_load {st : Store} (hS : StoreInv st) :
    GoodState ⟨loadTwinLunches st, st⟩ := by
  refine ⟨?_, hS, ?_⟩
  · show Inv (loadTwinLunches st)
    rw [loadTwinLunches_eq hS]
    exact inv_pairsOfStore hS
  · show Link (loadTwinLunches st) st
    rw [loadTwinLunches_eq hS]
    exact link_pairsOfStore st

/-! ### Branch analysis of `runCommand` -/

theorem lookup_eq_some_of_mapGet {r : Registry} {a b : String} (hb : b ≠ "")
    (h : mapGet r a = b) : List.lookup a r = some b := by
  unfold mapGet at h
  rcases hl : List.lookup a r with _ | v
  · rw [hl] at h
    simp at h
    exact absurd h.symm hb
  · rw [hl] at h
    simp only [Option.getD_some] at h
    rw [h]

/-- Exhaustive description of the state transition a command can cause: no
change, a pair insertion (with its validation conditions), a pair removal
(with its validation conditions), or a full clear. -/
theorem runCommand_cases (admins : List String) (ok : Bool) (s : State) (c : SlashCommand) :
    (runCommand admins ok s c).1 = s ∨
    (∃ a b, findMentions c.text = [a, b] ∧ a ≠ b ∧
      List.lookup a s.twinLunches = none ∧ List.lookup b s.twinLunches = none ∧
      (runCommand admins ok s c).1 =
        ⟨s.twinLunches ++ [(a, b), (b, a)], s.store ++ [⟨a, b⟩]⟩) ∨
    (∃ a b st2, findMentions c.text = [a, b] ∧
      List.lookup a s.twinLunches = some b ∧ removeRecord a s.store = some st2 ∧
      (runCommand admins ok s c).1 = ⟨mapDelete (mapDelete s.twinLunches a) b, st2⟩) ∨
    (runCommand admins ok s c).1 = ⟨[], []⟩ := by
  rcases hr : runCommand admins ok s c with ⟨s2, posts⟩
  simp only [hr]
  unfold runCommand at hr
  split at hr
  · -- admin
    split at hr
    · -- /twinlunch-add
      split at hr
      · -- exactly two mentions
        rename_i user1 user2 heq
        split at hr
        · injection hr with h1 _
          exact Or.inl h1.symm
        · rename_i hne
          split at hr
          · injection hr with h1 _
            exact Or.inl h1.symm
          · rename_i hs1
            split at hr
            · injection hr with h1 _
              exact Or.inl h1.symm
            · rename_i hs2
              split at hr
              · injection hr with h1 _
                have ha : List.lookup user1 s.twinLunches = none :=
                  Option.not_isSome_iff_eq_none.mp (by simpa using hs1)
                have hb : List.lookup user2 s.twinLunches = none :=
                  Option.not_isSome_iff_eq_none.mp (by simpa using hs2)
                refine Or.inr (Or.inl ⟨user1, user2, heq, hne, ha, hb, ?_⟩)
                rw [← h1, registry_add_eq ha hb hne]
              · injection hr with h1 _
                exact Or.inl h1.symm
      · injection hr with h1 _
        exact Or.inl h1.symm
    · split at hr
      · -- /twinlunch-remove
        split at hr
        · rename_i user1 user2 heq
          split at hr
          · injection hr with h1 _
            exact Or.inl h1.symm
          · rename_i hget
            split at hr
            · split at hr
              · injection hr with h1 _
                exact Or.inl h1.symm
              · rename_i st3 hrec
                injection hr with h1 _
                have hb2 : user2 ≠ "" := by
                  refine findMentions_ne_empty (s := c.text) ?_
                  rw [heq]
                  simp
                have hlook : List.lookup user1 s.twinLunches = some user2 :=
                  lookup_eq_some_of_mapGet hb2 (not_ne_iff.mp hget)
                exact Or.inr (Or.inr (Or.inl ⟨user1, user2, st3, heq, hlook, hrec, h1.symm⟩))
            · injection hr with h1 _
              exact Or.inl h1.symm
        · injection hr with h1 _
          exact Or.inl h1.symm
      · split at hr
        · -- /twinlunch-list
          split at hr
          · injection hr with h1 _
            exact Or.inl h1.symm
          · injection hr with h1 _
            exact Or.inl h1.symm
        · split at hr
          · -- /twinlunch-clear
            split at hr
            · injection hr with h1 _
              exact Or.inr (Or.inr (Or.inr h1.symm))
            · injection hr with h1 _
              exact Or.inl h1.symm
          · -- unknown command
            injection hr with h1 _
            exact Or.inl h1.symm
  · -- not an admin
    injection hr with h1 _
    exact Or.inl h1.symm

theorem inv_nil : Inv ([] : Registry) := by
  refine ⟨?_, ?_, ?_⟩ <;> simp [KeysNodup, NoSelf, Symm]

/-- One command step preserves the registry invariant (no assumption on the
durable store is needed). -/
theorem inv_step (admins : List String) (ok : Bool) (c : SlashCommand) (s : State)
    (hInv : Inv s.twinLunches) : Inv (runCommand admins ok s c).1.twinLunches := by
  rcases runCommand_cases admins ok s c with h | ⟨a, b, _, hab, ha, hb, h⟩ |
    ⟨a, b, st2, _, hlook, _, h⟩ | h
  · rw [h]; exact hInv
  · rw [h]; exact inv_add hInv hab ha hb
  · rw [h]; exact inv_remove hInv (lookup_mem hlook)
  · rw [h]; exact inv_nil

/-- One command step preserves full well-formedness of the state. -/
theorem good_step (admins : List String) (ok : Bool) (c : SlashCommand) (s : State)
    (hG : GoodState s) : GoodState (runCommand admins ok s c).1 := by
  obtain ⟨hInv, hS, hL⟩ := hG
  rcases runCommand_cases admins ok s c with h | ⟨a, b, _, hab, ha, hb, h⟩ |
    ⟨a, b, st2, _, hlook, hrec, h⟩ | h
  · rw [h]; exact ⟨hInv, hS, hL⟩
  · rw [h]
    exact ⟨inv_add hInv hab ha hb, storeInv_add hS hL ha hb hab, link_add a b hL⟩
  · rw [h]
    exact remove_good hInv hS hL hlook hrec
  · rw [h]; exact good_empty

theorem inv_foldState (admins : List String) :
    ∀ (inputs : List (Bool × SlashCommand)) (s : State),
      Inv s.twinLunches → Inv (foldState admins inputs s).twinLunches := by
  intro inputs
  induction inputs with
  | nil => intro s h; exact h
  | cons p ps ih =>
    intro s h
    unfold foldState at *
    rw [List.foldl_cons]
    exact ih _ (inv_step admins p.1 p.2 s h)

theorem good_foldState (admins : List String) :
    ∀ (inputs : List (Bool × SlashCommand)) (s : State),
      GoodState s → GoodState (foldState admins inputs s) := by
  intro inputs
  induction inputs with
  | nil => intro s h; exact h
  | cons p ps ih =>
    intro s h
    unfold foldState at *
    rw [List.foldl_cons]
    exact ih _ (good_step admins p.1 p.2 s h)

/-- Round trip: a well-formed state reloads from its store to a registry that
lists exactly the same unordered pairs. -/
theorem roundtrip {s : State} (hG : GoodState s) (x y : String) :
    ((x, y) ∈ listPairs (loadTwinLunches s.store) [] ∨
     (y, x) ∈ listPairs (loadTwinLunches s.store) []) ↔
    ((x, y) ∈ listPairs s.twinLunches [] ∨ (y, x) ∈ listPairs s.twinLunches []) := by
  obtain ⟨hInv, hS, hL⟩ := hG
  rw [loadTwinLunches_eq hS]
  rw [mem_listPairs_iff (inv_pairsOfStore hS) x y, mem_listPairs_iff hInv x y]
  rw [mem_pairsOfStore, hL x y]

/-! ### Reduction lemmas for the individual command branches -/

theorem runCommand_nonadmin (admins : List String) (ok : Bool) (s : State)
    (c : SlashCommand) (h : c.userID ∉ admins) :
    runCommand admins ok s c = (s, [sendBotMessageToUser c.userID notAuthText]) := by
  unfold runCommand
  rw [if_neg h]

theorem runCommand_add_eq {admins : List String} {s : State} {c : SlashCommand}
    {a b : String} (ok : Bool) (hAdm : c.userID ∈ admins)
    (hCmd : c.command = "/twinlunch-add") (hParse : findMentions c.text = [a, b])
    (hab : a ≠ b) (ha : List.lookup a s.twinLunches = none)
    (hb : List.lookup b s.twinLunches = none) :
    runCommand admins ok s c =
      if ok then
        (⟨s.twinLunches ++ [(a, b), (b, a)], s.store ++ [⟨a, b⟩]⟩,
         [sendBotMessageToUser a onboardingText, sendBotMessageToUser b onboardingText,
          sendBotMessageToUser c.userID (addConfirmText a b)])
      else (s, []) := by
  have ha2 : ¬((List.lookup a s.twinLunches).isSome = true) := by rw [ha]; simp
  have hb2 : ¬((List.lookup b s.twinLunches).isSome = true) := by rw [hb]; simp
  unfold runCommand
  rw [if_pos hAdm, if_pos hCmd, hParse]
  dsimp only
  rw [if_neg hab, if_neg ha2, if_neg hb2, registry_add_eq ha hb hab]

theorem runCommand_remove_notpaired {admins : List String} {s : State}
    {c : SlashCommand} {a b : String} (ok : Bool) (hAdm : c.userID ∈ admins)
    (hCmd : c.command = "/twinlunch-remove") (hParse : findMentions c.text = [a, b])
    (hget : mapGet s.twinLunches a ≠ b) :
    runCommand admins ok s c = (s, [sendBotMessageToUser c.userID (notPairedText a b)]) := by
  have hCmd1 : ¬(c.command = "/twinlunch-add") := by rw [hCmd]; decide
  unfold runCommand
  rw [if_pos hAdm, if_neg hCmd1, if_pos hCmd, hParse]
  dsimp only
  rw [if_pos hget]

theorem runCommand_remove_eq {admins : List String} {s : State}
    {c : SlashCommand} {a b : String} (ok : Bool) (hAdm : c.userID ∈ admins)
    (hCmd : c.command = "/twinlunch-remove") (hParse : findMentions c.text = [a, b])
    (hlook : List.lookup a s.twinLunches = some b) :
    runCommand admins ok s c =
      if ok then
        match removeRecord a s.store with
        | none => (s, [])
        | some st2 =>
          (⟨mapDelete (mapDelete s.twinLunches a) b, st2⟩,
           [sendBotMessageToUser c.userID (removeConfirmText a b)])
      else (s, []) := by
  have hCmd1 : ¬(c.command = "/twinlunch-add") := by rw [hCmd]; decide
  have hget : mapGet s.twinLunches a = b := by
    unfold mapGet
    rw [hlook]
    rfl
  unfold runCommand
  rw [if_pos hAdm, if_neg hCmd1, if_pos hCmd, hParse]
  dsimp only
  rw [if_neg (not_ne_iff.mpr hget)]

theorem runCommand_list_empty {admins : List String} {s : State} {c : SlashCommand}
    (ok : Bool) (hAdm : c.userID ∈ admins) (hCmd : c.command = "/twinlunch-list")
    (hemp : s.twinLunches = []) :
    runCommand admins ok s c = (s, [sendBotMessageToUser c.userID emptyListText]) := by
  have hCmd1 : ¬(c.command = "/twinlunch-add") := by rw [hCmd]; decide
  have hCmd2 : ¬(c.command = "/twinlunch-remove") := by rw [hCmd]; decide
  unfold runCommand
  rw [if_pos hAdm, if_neg hCmd1, if_neg hCmd2, if_pos hCmd, if_pos hemp]

theorem runCommand_list_eq {admins : List String} {s : State} {c : SlashCommand}
    (ok : Bool) (hAdm : c.userID ∈ admins) (hCmd : c.command = "/twinlunch-list")
    (hne : s.twinLunches ≠ []) :
    runCommand admins ok s c =
      (s, [sendBotMessageToUser c.userID
        (listHeaderText ++
          String.intercalate "\n" ((listPairs s.twinLunches []).map pairLine))]) := by
  have hCmd1 : ¬(c.command = "/twinlunch-add") := by rw [hCmd]; decide
  have hCmd2 : ¬(c.command = "/twinlunch-remove") := by rw [hCmd]; decide
  unfold runCommand
  rw [if_pos hAdm, if_neg hCmd1, if_neg hCmd2, if_pos hCmd, if_neg hne]

theorem runCommand_clear_eq {admins : List String} {s : State} {c : SlashCommand}
    (ok : Bool) (hAdm : c.userID ∈ admins) (hCmd : c.command = "/twinlunch-clear") :
    runCommand admins ok s c =
      if ok then ((⟨[], []⟩ : State), [sendBotMessageToUser c.userID clearConfirmText])
      else (s, []) := by
  have hCmd1 : ¬(c.command = "/twinlunch-add") := by rw [hCmd]; decide
  have hCmd2 : ¬(c.command = "/twinlunch-remove") := by rw [hCmd]; decide
  have hCmd3 : ¬(c.command = "/twinlunch-list") := by rw [hCmd]; decide
  unfold runCommand
  rw [if_pos hAdm, if_neg hCmd1, if_neg hCmd2, if_neg hCmd3, if_pos hCmd]

theorem runCommand_unknown {admins : List String} {s : State} {c : SlashCommand}
    (ok : Bool) (hAdm : c.userID ∈ admins)
    (h1 : c.command ≠ "/twinlunch-add") (h2 : c.command ≠ "/twinlunch-remove")
    (h3 : c.command ≠ "/twinlunch-list") (h4 : c.command ≠ "/twinlunch-clear") :
    runCommand admins ok s c = (s, []) := by
  unfold runCommand
  rw [if_pos hAdm, if_neg h1, if_neg h2, if_neg h3, if_neg h4]

theorem runCommand_add_needtwo {admins : List String} {s : State} {c : SlashCommand}
    (ok : Bool) (hAdm : c.userID ∈ admins) (hCmd : c.command = "/twinlunch-add")
    (hParse : ∀ a b, findMentions c.text ≠ [a, b]) :
    runCommand admins ok s c = (s, [sendBotMessageToUser c.userID addNeedTwoText]) := by
  unfold runCommand
  rw [if_pos hAdm, if_pos hCmd]
  rcases hfm : findMentions c.text with _ | ⟨u1, _ | ⟨u2, _ | ⟨u3, rest⟩⟩⟩
  · rfl
  · rfl
  · exact absurd hfm (hParse u1 u2)
  · rfl

theorem runCommand_add_same {admins : List String} {s : State} {c : SlashCommand}
    {a : String} (ok : Bool) (hAdm : c.userID ∈ admins)
    (hCmd : c.command = "/twinlunch-add") (hParse : findMentions c.text = [a, a]) :
    runCommand admins ok s c = (s, [sendBotMessageToUser c.userID addSameText]) := by
  unfold runCommand
  rw [if_pos hAdm, if_pos hCmd, hParse]
  dsimp only
  rw [if_pos rfl]

theorem runCommand_add_already1 {admins : List String} {s : State} {c : SlashCommand}
    {a b : String} (ok : Bool) (hAdm : c.userID ∈ admins)
    (hCmd : c.command = "/twinlunch-add") (hParse : findMentions c.text = [a, b])
    (hab : a ≠ b) (ha : (List.lookup a s.twinLunches).isSome = true) :
    runCommand admins ok s c = (s, [sendBotMessageToUser c.userID (alreadyText a)]) := by
  unfold runCommand
  rw [if_pos hAdm, if_pos hCmd, hParse]
  dsimp only
  rw [if_neg hab, if_pos ha]

theorem runCommand_add_already2 {admins : List String} {s : State} {c : SlashCommand}
    {a b : String} (ok : Bool) (hAdm : c.userID ∈ admins)
    (hCmd : c.command = "/twinlunch-add") (hParse : findMentions c.text = [a, b])
    (hab : a ≠ b) (ha : List.lookup a s.twinLunches = none)
    (hb : (List.lookup b s.twinLunches).isSome = true) :
    runCommand admins ok s c = (s, [sendBotMessageToUser c.userID (alreadyText b)]) := by
  have ha2 : ¬((List.lookup a s.twinLunches).isSome = true) := by rw [ha]; simp
  unfold runCommand
  rw [if_pos hAdm, if_pos hCmd, hParse]
  dsimp only
  rw [if_neg hab, if_neg ha2, if_pos hb]

theorem runCommand_remove_needtwo {admins : List String} {s : State} {c : SlashCommand}
    (ok : Bool) (hAdm : c.userID ∈ admins) (hCmd : c.command = "/twinlunch-remove")
    (hParse : ∀ a b, findMentions c.text ≠ [a, b]) :
    runCommand admins ok s c = (s, [sendBotMessageToUser c.userID removeNeedTwoText]) := by
  have hCmd1 : ¬(c.command = "/twinlunch-add") := by rw [hCmd]; decide
  unfold runCommand
  rw [if_pos hAdm, if_neg hCmd1, if_pos hCmd]
  rcases hfm : findMentions c.text with _ | ⟨u1, _ | ⟨u2, _ | ⟨u3, rest⟩⟩⟩
  · rfl
  · rfl
  · exact absurd hfm (hParse u1 u2)
  · rfl

/-! ### Claim theorems -/

/-- C1: The Pairing Registry invariant (no self-pairing; for every entry A→B
the entry B→A exists; keys pairwise distinct as in any Go map) holds in every
reachable state: the startup load of a well-formed store satisfies it, every
command step (add, remove, clear — and the non-mutating branches) preserves
it, and hence every state reached from startup by a sequence of command steps
satisfies it. -/
theorem registry_invariant_preserved :
    (∀ st : Store, StoreInv st → Inv (loadTwinLunches st)) ∧
    (∀ (admins : List String) (ok : Bool) (c : SlashCommand) (s : State),
      Inv s.twinLunches → Inv (runCommand admins ok s c).1.twinLunches) ∧
    (∀ (admins : List String) (inputs : List (Bool × SlashCommand)) (st0 : Store),
      StoreInv st0 →
      Inv (foldState admins inputs ⟨loadTwinLunches st0, st0⟩).twinLunches) := by
  refine ⟨?_, ?_, ?_⟩
  · intro st hS
    rw [loadTwinLunches_eq hS]
    exact inv_pairsOfStore hS
  · exact fun admins ok c s h => inv_step admins ok c s h
  · intro admins inputs st0 hS
    refine inv_foldState admins inputs _ ?_
    show Inv (loadTwinLunches st0)
    rw [loadTwinLunches_eq hS]
    exact inv_pairsOfStore hS

theorem registry_invariant_preserved_witness :
    Inv (loadTwinLunches [⟨"U1", "U2"⟩]) ∧
    Inv (runCommand ["A"] true ⟨[], []⟩
      ⟨"A", "/twinlunch-add", "<@U1|u> <@U2|v>"⟩).1.twinLunches ∧
    Inv (foldState ["A"] [(true, ⟨"A", "/twinlunch-add", "<@U1|u> <@U2|v>"⟩)]
      ⟨loadTwinLunches [⟨"U3", "U4"⟩], [⟨"U3", "U4"⟩]⟩).twinLunches := by
  obtain ⟨h1, h2, h3⟩ := registry_invariant_preserved
  exact ⟨h1 _ (by decide), h2 ["A"] true _ _ (by decide), h3 ["A"] _ _ (by decide)⟩

/-- C2: a successful `/twinlunch-add` of two distinct, unpaired members `a`,
`b` (past validation, with the datastore write succeeding) makes `a` and `b`
mutual partners and appends exactly the unordered pair `{a, b}` to the
rendered pair list. -/
theorem create_success_spec (admins : List String) (s : State) (c : SlashCommand)
    (a b : String) (hInv : Inv s.twinLunches) (hAdm : c.userID ∈ admins)
    (hCmd : c.command = "/twinlunch-add") (hParse : findMentions c.text = [a, b])
    (hab : a ≠ b) (ha : List.lookup a s.twinLunches = none)
    (hb : List.lookup b s.twinLunches = none) :
    List.lookup a (runCommand admins true s c).1.twinLunches = some b ∧
    List.lookup b (runCommand admins true s c).1.twinLunches = some a ∧
    listPairs (runCommand admins true s c).1.twinLunches [] =
      listPairs s.twinLunches [] ++ [(a, b)] := by
  have hfresh : ∀ u, List.lookup u s.twinLunches = none →
      ∀ p ∈ s.twinLunches, p.1 ≠ u ∧ p.2 ≠ u := by
    intro u hu p hp
    have hk := (lookup_eq_none_iff u _).mp hu
    constructor
    · intro hc
      exact hk (hc ▸ List.mem_map_of_mem Prod.fst hp)
    · intro hc
      have hsy := hInv.2.2 p hp
      exact hk (by rw [← hc]; exact List.mem_map_of_mem Prod.fst hsy)
  rw [runCommand_add_eq true hAdm hCmd hParse hab ha hb, if_pos rfl]
  dsimp only
  refine ⟨?_, ?_, ?_⟩
  · rw [lookup_append_of_none _ ha, lookup_cons, if_pos rfl]
  · rw [lookup_append_of_none _ hb, lookup_cons,
       if_neg (fun hc => hab hc.symm), lookup_cons, if_pos rfl]
  · refine listPairs_append a b s.twinLunches [] (by simp) (by simp) hab ?_
    intro p hp
    obtain ⟨h1a, h2a⟩ := hfresh a ha p hp
    obtain ⟨h1b, h2b⟩ := hfresh b hb p hp
    exact ⟨h1a, h2a, h1b, h2b⟩

theorem create_success_spec_witness :
    List.lookup "U1" (runCommand ["A"] true ⟨[], []⟩
      ⟨"A", "/twinlunch-add", "<@U1|u> <@U2|v>"⟩).1.twinLunches = some "U2" ∧
    List.lookup "U2" (runCommand ["A"] true ⟨[], []⟩
      ⟨"A", "/twinlunch-add", "<@U1|u> <@U2|v>"⟩).1.twinLunches = some "U1" ∧
    listPairs (runCommand ["A"] true ⟨[], []⟩
      ⟨"A", "/twinlunch-add", "<@U1|u> <@U2|v>"⟩).1.twinLunches [] =
      listPairs ([] : Registry) [] ++ [("U1", "U2")] :=
  create_success_spec ["A"] ⟨[], []⟩ ⟨"A", "/twinlunch-add", "<@U1|u> <@U2|v>"⟩
    "U1" "U2" (by decide) (by decide) rfl (by decide) (by decide) rfl rfl

/-- C3: with registry and store well formed and consistent, a
`/twinlunch-remove` of `a`, `b` (with the datastore transaction able to run)
issues the removal confirmation exactly when the registry records `a↔b`
mutually, and after a successful removal neither member has an entry any
more. -/
theorem remove_success_iff (admins : List String) (s : State) (c : SlashCommand)
    (a b : String) (hInv : Inv s.twinLunches) (_hS : StoreInv s.store)
    (hL : Link s.twinLunches s.store) (hAdm : c.userID ∈ admins)
    (hCmd : c.command = "/twinlunch-remove") (hParse : findMentions c.text = [a, b]) :
    ((runCommand admins true s c).2 =
        [sendBotMessageToUser c.userID (removeConfirmText a b)] ↔
      (List.lookup a s.twinLunches = some b ∧ List.lookup b s.twinLunches = some a)) ∧
    (List.lookup a s.twinLunches = some b →
      List.lookup a (runCommand admins true s c).1.twinLunches = none ∧
      List.lookup b (runCommand admins true s c).1.twinLunches = none) := by
  have hb2 : b ≠ "" := findMentions_ne_empty (s := c.text) (by rw [hParse]; simp)
  by_cases hlook : List.lookup a s.twinLunches = some b
  · have hmem : (a, b) ∈ s.twinLunches := lookup_mem hlook
    have hmem2 : (b, a) ∈ s.twinLunches := hInv.2.2 _ hmem
    have hlook2 : List.lookup b s.twinLunches = some a := mem_lookup hInv.1 hmem2
    have hrec : removeRecord a s.store ≠ none := by
      intro ho
      have hall := (removeRecord_eq_none_iff a s.store).mp ho
      rcases (hL a b).mp hmem with hw | hw
      · exact hall _ hw (Or.inl rfl)
      · exact hall _ hw (Or.inr rfl)
    rcases ho : removeRecord a s.store with _ | st2
    · exact absurd ho hrec
    · rw [runCommand_remove_eq true hAdm hCmd hParse hlook, if_pos rfl, ho]
      dsimp only
      refine ⟨⟨fun _ => ⟨hlook, hlook2⟩, fun _ => rfl⟩, fun _ => ⟨?_, ?_⟩⟩
      · rw [lookup_mapDelete]
        by_cases hab : a = b
        · rw [if_pos hab]
        · rw [if_neg hab, lookup_mapDelete, if_pos rfl]
      · rw [lookup_mapDelete, if_pos rfl]
  · have hget : mapGet s.twinLunches a ≠ b := by
      intro hc
      exact hlook (lookup_eq_some_of_mapGet hb2 hc)
    rw [runCommand_remove_notpaired true hAdm hCmd hParse hget]
    dsimp only
    refine ⟨⟨?_, ?_⟩, ?_⟩
    · intro hpost
      injection hpost with hx _
      have htext := sendBotMessageToUser_text_inj hx
      exact absurd htext.symm (removeConfirm_ne_notPaired a b)
    · rintro ⟨hc, _⟩
      exact absurd hc hlook
    · intro hc
      exact absurd hc hlook

theorem remove_success_iff_witness :
    (((runCommand ["A"] true ⟨pairsOfStore [⟨"U1", "U2"⟩], [⟨"U1", "U2"⟩]⟩
        ⟨"A", "/twinlunch-remove", "<@U1|u> <@U2|v>"⟩).2 =
      [sendBotMessageToUser "A" (removeConfirmText "U1" "U2")] ↔
      (List.lookup "U1" (pairsOfStore [⟨"U1", "U2"⟩]) = some "U2" ∧
       List.lookup "U2" (pairsOfStore [⟨"U1", "U2"⟩]) = some "U1")) ∧
     (List.lookup "U1" (pairsOfStore [⟨"U1", "U2"⟩]) = some "U2" →
      List.lookup "U1" (runCommand ["A"] true
        ⟨pairsOfStore [⟨"U1", "U2"⟩], [⟨"U1", "U2"⟩]⟩
        ⟨"A", "/twinlunch-remove", "<@U1|u> <@U2|v>"⟩).1.twinLunches = none ∧
      List.lookup "U2" (runCommand ["A"] true
        ⟨pairsOfStore [⟨"U1", "U2"⟩], [⟨"U1", "U2"⟩]⟩
        ⟨"A", "/twinlunch-remove", "<@U1|u> <@U2|v>"⟩).1.twinLunches = none)) :=
  remove_success_iff ["A"] ⟨pairsOfStore [⟨"U1", "U2"⟩], [⟨"U1", "U2"⟩]⟩
    ⟨"A", "/twinlunch-remove", "<@U1|u> <@U2|v>"⟩ "U1" "U2"
    (inv_pairsOfStore (by decide)) (by decide) (link_pairsOfStore _)
    (by decide) rfl rfl

/-- C4: starting from the state loaded from a well-formed store and applying
any sequence of commands (including failed ones), reloading the resulting
store yields a registry whose rendered pair list contains exactly the same
unordered pairs as the live registry. -/
theorem store_roundtrip_spec (admins : List String) (st0 : Store)
    (inputs : List (Bool × SlashCommand)) (hS : StoreInv st0) (x y : String) :
    ((x, y) ∈ listPairs (loadTwinLunches
        (foldState admins inputs ⟨loadTwinLunches st0, st0⟩).store) [] ∨
     (y, x) ∈ listPairs (loadTwinLunches
        (foldState admins inputs ⟨loadTwinLunches st0, st0⟩).store) []) ↔
    ((x, y) ∈ listPairs
        (foldState admins inputs ⟨loadTwinLunches st0, st0⟩).twinLunches [] ∨
     (y, x) ∈ listPairs
        (foldState admins inputs ⟨loadTwinLunches st0, st0⟩).twinLunches []) :=
  roundtrip (good_foldState admins inputs _ (good_load hS)) x y

theorem store_roundtrip_spec_witness :
    ((("U3", "U4") ∈ listPairs (loadTwinLunches
        (foldState ["A"] [(true, ⟨"A", "/twinlunch-add", "<@U3|u> <@U4|v>"⟩)]
          ⟨loadTwinLunches [⟨"U1", "U2"⟩], [⟨"U1", "U2"⟩]⟩).store) [] ∨
      ("U4", "U3") ∈ listPairs (loadTwinLunches
        (foldState ["A"] [(true, ⟨"A", "/twinlunch-add", "<@U3|u> <@U4|v>"⟩)]
          ⟨loadTwinLunches [⟨"U1", "U2"⟩], [⟨"U1", "U2"⟩]⟩).store) []) ↔
     (("U3", "U4") ∈ listPairs
        (foldState ["A"] [(true, ⟨"A", "/twinlunch-add", "<@U3|u> <@U4|v>"⟩)]
          ⟨loadTwinLunches [⟨"U1", "U2"⟩], [⟨"U1", "U2"⟩]⟩).twinLunches [] ∨
      ("U4", "U3") ∈ listPairs
        (foldState ["A"] [(true, ⟨"A", "/twinlunch-add", "<@U3|u> <@U4|v>"⟩)]
          ⟨loadTwinLunches [⟨"U1", "U2"⟩], [⟨"U1", "U2"⟩]⟩).twinLunches [])) :=
  store_roundtrip_spec ["A"] [⟨"U1", "U2"⟩]
    [(true, ⟨"A", "/twinlunch-add", "<@U3|u> <@U4|v>"⟩)] (by decide) "U3" "U4"

/-- C5: when the datastore operation of a mutating command fails — the `Put`
of a validated add, the delete transaction of a validated remove (either the
transaction itself failing or the record not being found), or the delete-all
transaction of clear — the command aborts with the state exactly as before
and no outbound message at all (in particular no confirmation to the
issuer). -/
theorem persistence_failure_atomic :
    (∀ (admins : List String) (s : State) (c : SlashCommand) (a b : String),
      c.userID ∈ admins → c.command = "/twinlunch-add" →
      findMentions c.text = [a, b] → a ≠ b →
      List.lookup a s.twinLunches = none → List.lookup b s.twinLunches = none →
      runCommand admins false s c = (s, [])) ∧
    (∀ (admins : List String) (s : State) (c : SlashCommand) (a b : String),
      c.userID ∈ admins → c.command = "/twinlunch-remove" →
      findMentions c.text = [a, b] → List.lookup a s.twinLunches = some b →
      runCommand admins false s c = (s, [])) ∧
    (∀ (admins : List String) (s : State) (c : SlashCommand) (a b : String),
      c.userID ∈ admins → c.command = "/twinlunch-remove" →
      findMentions c.text = [a, b] → List.lookup a s.twinLunches = some b →
      removeRecord a s.store = none →
      runCommand admins true s c = (s, [])) ∧
    (∀ (admins : List String) (s : State) (c : SlashCommand),
      c.userID ∈ admins → c.command = "/twinlunch-clear" →
      runCommand admins false s c = (s, [])) := by
  refine ⟨?_, ?_, ?_, ?_⟩
  · intro admins s c a b hAdm hCmd hParse hab ha hb
    rw [runCommand_add_eq false hAdm hCmd hParse hab ha hb, if_neg (by simp)]
  · intro admins s c a b hAdm hCmd hParse hlook
    rw [runCommand_remove_eq false hAdm hCmd hParse hlook, if_neg (by simp)]
  · intro admins s c a b hAdm hCmd hParse hlook hnone
    rw [runCommand_remove_eq true hAdm hCmd hParse hlook, if_pos rfl, hnone]
  · intro admins s c hAdm hCmd
    rw [runCommand_clear_eq false hAdm hCmd, if_neg (by simp)]

theorem persistence_failure_atomic_witness :
    runCommand ["A"] false ⟨[], []⟩ ⟨"A", "/twinlunch-add", "<@U1|u> <@U2|v>"⟩ =
      (⟨[], []⟩, []) ∧
    runCommand ["A"] false ⟨pairsOfStore [⟨"U1", "U2"⟩], [⟨"U1", "U2"⟩]⟩
      ⟨"A", "/twinlunch-remove", "<@U1|u> <@U2|v>"⟩ =
      (⟨pairsOfStore [⟨"U1", "U2"⟩], [⟨"U1", "U2"⟩]⟩, []) ∧
    runCommand ["A"] true ⟨pairsOfStore [⟨"U1", "U2"⟩], []⟩
      ⟨"A", "/twinlunch-remove", "<@U1|u> <@U2|v>"⟩ =
      (⟨pairsOfStore [⟨"U1", "U2"⟩], []⟩, []) ∧
    runCommand ["A"] false ⟨[], []⟩ ⟨"A", "/twinlunch-clear", ""⟩ = (⟨[], []⟩, []) := by
  obtain ⟨h1, h2, h3, h4⟩ := persistence_failure_atomic
  refine ⟨h1 ["A"] _ _ "U1" "U2" (by decide) rfl rfl (by decide) rfl rfl, ?_, ?_, ?_⟩
  · exact h2 ["A"] _ _ "U1" "U2" (by decide) rfl rfl rfl
  · exact h3 ["A"] _ _ "U1" "U2" (by decide) rfl rfl rfl rfl
  · exact h4 ["A"] _ _ (by decide) rfl

/-- `needle` occurs (as a contiguous substring) somewhere in `hay`. -/
def strOccurs (needle hay : String) : Prop :=
  ∃ l r : List Char, hay.data = l ++ needle.data ++ r

/-- C6 (as stated) is false: the router forwards the inbound text verbatim,
so a sender whose message text itself contains their own identifier produces
an outbound payload containing that identifier.  Here the classified message
from sender `U1` with text `hello U1` is forwarded to the partner `U2` with
text `hello U1`, in which the sender identifier `U1` occurs. -/
theorem router_privacy_counterexample :
    keepMessage ⟨"U1", "C1", "im", "", "hello U1"⟩ = true ∧
    handleMessage [("U1", "U2"), ("U2", "U1")] ⟨"U1", "C1", "im", "", "hello U1"⟩ =
      [{ dest := Dest.user "U2", text := "hello U1", username := "Ton Twin Lunch",
         icon := "question" }] ∧
    strOccurs "U1" "hello U1" :=
  ⟨rfl, rfl, ⟨"hello ".data, [], by decide⟩⟩

/-- C6 (amended): for every classified inbound direct message the router
produces exactly one outbound action; when the sender has a partner the
payload is the partner's direct conversation, the inbound text verbatim, and
the sender-independent constants `Ton Twin Lunch` / `question` — so nothing
derived from the sender's identity is added, though the forwarded text itself
may already contain the sender's identifier; when the sender has no partner,
the single action is the "no twin" notice to the sender's own conversation. -/
theorem router_forward_spec (r : Registry) (m : MessageEvent)
    (_hkeep : keepMessage m = true) :
    (handleMessage r m).length = 1 ∧
    (∀ twin, List.lookup m.user r = some twin →
      handleMessage r m =
        [{ dest := Dest.user twin, text := m.text, username := "Ton Twin Lunch",
           icon := "question" }]) ∧
    (List.lookup m.user r = none →
      handleMessage r m =
        [{ dest := Dest.channel m.channel, text := "_bip bip_ " ++ noTwinText,
           username := "Twin Lunch Bot", icon := "robot_face" }]) := by
  unfold handleMessage
  refine ⟨?_, ?_, ?_⟩
  · rcases hl : List.lookup m.user r with _ | tw
    · rfl
    · rfl
  · intro twin ht
    rw [ht]
    rfl
  · intro ht
    rw [ht]
    rfl

theorem router_forward_spec_witness :
    (handleMessage [("U1", "U2"), ("U2", "U1")]
      ⟨"U1", "C1", "im", "", "salut"⟩).length = 1 ∧
    (∀ twin, List.lookup "U1" [("U1", "U2"), ("U2", "U1")] = some twin →
      handleMessage [("U1", "U2"), ("U2", "U1")] ⟨"U1", "C1", "im", "", "salut"⟩ =
        [{ dest := Dest.user twin, text := "salut", username := "Ton Twin Lunch",
           icon := "question" }]) ∧
    (List.lookup "U1" [("U1", "U2"), ("U2", "U1")] = none →
      handleMessage [("U1", "U2"), ("U2", "U1")] ⟨"U1", "C1", "im", "", "salut"⟩ =
        [{ dest := Dest.channel "C1", text := "_bip bip_ " ++ noTwinText,
           username := "Twin Lunch Bot", icon := "robot_face" }]) :=
  router_forward_spec [("U1", "U2"), ("U2", "U1")] ⟨"U1", "C1", "im", "", "salut"⟩ rfl

/-- C7: a command whose issuer is not in the admin allow-list produces
exactly one "not authorized" notice to the issuer and leaves the registry and
the durable store untouched, whatever the command name or arguments. -/
theorem nonadmin_notice_spec (admins : List String) (ok : Bool) (s : State)
    (c : SlashCommand) (h : c.userID ∉ admins) :
    runCommand admins ok s c = (s, [sendBotMessageToUser c.userID notAuthText]) :=
  runCommand_nonadmin admins ok s c h

theorem nonadmin_notice_spec_witness :
    runCommand ["A"] true ⟨[], []⟩ ⟨"B", "/twinlunch-clear", ""⟩ =
      (⟨[], []⟩, [sendBotMessageToUser "B" notAuthText]) :=
  nonadmin_notice_spec ["A"] true ⟨[], []⟩ ⟨"B", "/twinlunch-clear", ""⟩ (by decide)

/-- C8: for a registry satisfying the invariant, the `/twinlunch-list`
rendering walks the map once and produces one line per pair: every rendered
pair is recorded, every recorded pair appears (in one of its two
orientations), no unordered pair appears twice, and the command's single
outbound message is exactly the rendering of that deduplicated list. -/
theorem list_rendering_spec (r : Registry) (hInv : Inv r) :
    (∀ p ∈ listPairs r [], p ∈ r) ∧
    (∀ p ∈ r, p ∈ listPairs r [] ∨ (p.2, p.1) ∈ listPairs r []) ∧
    List.Pairwise (fun p q => p ≠ q ∧ p ≠ (q.2, q.1)) (listPairs r []) ∧
    (∀ (admins : List String) (ok : Bool) (s : State) (c : SlashCommand),
      c.userID ∈ admins → c.command = "/twinlunch-list" → s.twinLunches = r →
      r ≠ [] →
      (runCommand admins ok s c).2 = [sendBotMessageToUser c.userID
        (listHeaderText ++
          String.intercalate "\n" ((listPairs r []).map pairLine))]) := by
  refine ⟨?_, ?_, listPairs_pairwise hInv, ?_⟩
  · intro p hp
    exact (listPairs_sound r [] p hp).1
  · intro p hp
    have := (mem_listPairs_iff hInv p.1 p.2).mpr hp
    exact this
  · intro admins ok s c hAdm hCmd hs hne
    have hne2 : s.twinLunches ≠ [] := by rw [hs]; exact hne
    rw [runCommand_list_eq ok hAdm hCmd hne2, hs]

theorem list_rendering_spec_witness :
    (∀ p ∈ listPairs (pairsOfStore [⟨"U1", "U2"⟩]) [], p ∈ pairsOfStore [⟨"U1", "U2"⟩]) ∧
    (∀ p ∈ pairsOfStore [⟨"U1", "U2"⟩],
      p ∈ listPairs (pairsOfStore [⟨"U1", "U2"⟩]) [] ∨
      (p.2, p.1) ∈ listPairs (pairsOfStore [⟨"U1", "U2"⟩]) []) ∧
    List.Pairwise (fun p q => p ≠ q ∧ p ≠ (q.2, q.1))
      (listPairs (pairsOfStore [⟨"U1", "U2"⟩]) []) ∧
    (∀ (admins : List String) (ok : Bool) (s : State) (c : SlashCommand),
      c.userID ∈ admins → c.command = "/twinlunch-list" →
      s.twinLunches = pairsOfStore [⟨"U1", "U2"⟩] → pairsOfStore [⟨"U1", "U2"⟩] ≠ [] →
      (runCommand admins ok s c).2 = [sendBotMessageToUser c.userID
        (listHeaderText ++ String.intercalate "\n"
          ((listPairs (pairsOfStore [⟨"U1", "U2"⟩]) []).map pairLine))]) :=
  list_rendering_spec (pairsOfStore [⟨"U1", "U2"⟩]) (by decide)

/-- C9 (as stated) is false: here an authorized admin issues a fully valid
`/twinlunch-add`, the datastore `Put` fails, and the interpreter sends no
notice at all to the issuer (the add branch logs the error and `continue`s),
whereas the claim requires exactly one notice on every branch. -/
theorem interpreter_notice_counterexample :
    ("A" : String) ∈ ["A"] ∧
    findMentions "<@U1|u> <@U2|v>" = ["U1", "U2"] ∧
    ("U1" : String) ≠ "U2" ∧
    List.lookup "U1" ([] : Registry) = none ∧
    List.lookup "U2" ([] : Registry) = none ∧
    (runCommand ["A"] false ⟨[], []⟩ ⟨"A", "/twinlunch-add", "<@U1|u> <@U2|v>"⟩).2 = [] := by
  refine ⟨by decide, rfl, by decide, rfl, rfl, rfl⟩

/-- C9 (amended): for every command event from an authorized admin naming one
of the four dispatch branches, the branch either (i) leaves the registry and
durable store unchanged and emits exactly one notice to the issuer — a
success confirmation or a validation-failure notice —, or (ii) is aborted by
a durable-store failure (the store operation failing, or the remove
transaction finding no record), leaving the state unchanged and emitting
nothing, or (iii) mutates the state and ends its output with the success
confirmation of that very command to the issuer; moreover every parse/validation
failure of add and remove returns the unchanged state paired with exactly its
validation notice, so parse/validation failures never mutate the registry or
the durable store. -/
theorem interpreter_branch_notices (admins : List String) (ok : Bool) (s : State)
    (c : SlashCommand) (hAdm : c.userID ∈ admins) :
    (c.command ∈ ["/twinlunch-add", "/twinlunch-remove", "/twinlunch-list",
        "/twinlunch-clear"] →
      ((runCommand admins ok s c).1 = s ∧
        ∃ t, (runCommand admins ok s c).2 = [sendBotMessageToUser c.userID t]) ∨
      ((runCommand admins ok s c).1 = s ∧ (runCommand admins ok s c).2 = []) ∨
      ((runCommand admins ok s c).1 ≠ s ∧
        ((c.command = "/twinlunch-add" ∧ ∃ a b, findMentions c.text = [a, b] ∧
            ((runCommand admins ok s c).2).getLast? =
              some (sendBotMessageToUser c.userID (addConfirmText a b))) ∨
         (c.command = "/twinlunch-remove" ∧ ∃ a b, findMentions c.text = [a, b] ∧
            (runCommand admins ok s c).2 =
              [sendBotMessageToUser c.userID (removeConfirmText a b)]) ∨
         (c.command = "/twinlunch-clear" ∧
            (runCommand admins ok s c).2 =
              [sendBotMessageToUser c.userID clearConfirmText])))) ∧
    (c.command = "/twinlunch-add" →
      ((∀ a b, findMentions c.text ≠ [a, b]) →
        runCommand admins ok s c = (s, [sendBotMessageToUser c.userID addNeedTwoText])) ∧
      (∀ a, findMentions c.text = [a, a] →
        runCommand admins ok s c = (s, [sendBotMessageToUser c.userID addSameText])) ∧
      (∀ a b, findMentions c.text = [a, b] → a ≠ b →
        (List.lookup a s.twinLunches).isSome = true →
        runCommand admins ok s c = (s, [sendBotMessageToUser c.userID (alreadyText a)])) ∧
      (∀ a b, findMentions c.text = [a, b] → a ≠ b →
        List.lookup a s.twinLunches = none →
        (List.lookup b s.twinLunches).isSome = true →
        runCommand admins ok s c = (s, [sendBotMessageToUser c.userID (alreadyText b)]))) ∧
    (c.command = "/twinlunch-remove" →
      ((∀ a b, findMentions c.text ≠ [a, b]) →
        runCommand admins ok s c =
          (s, [sendBotMessageToUser c.userID removeNeedTwoText])) ∧
      (∀ a b, findMentions c.text = [a, b] → mapGet s.twinLunches a ≠ b →
        runCommand admins ok s c =
          (s, [sendBotMessageToUser c.userID (notPairedText a b)]))) := by
  refine ⟨?_, ?_, ?_⟩
  · -- the trichotomy over the four dispatch branches
    intro hCmd4
    rcases hr : runCommand admins ok s c with ⟨s2, posts⟩
    simp only [hr]
    unfold runCommand at hr
    split at hr
    · split at hr
      · -- /twinlunch-add
        rename_i hcadd
        split at hr
        · rename_i user1 user2 heq
          split at hr
          · injection hr with h1 h2
            exact Or.inl ⟨h1.symm, _, h2.symm⟩
          · split at hr
            · injection hr with h1 h2
              exact Or.inl ⟨h1.symm, _, h2.symm⟩
            · split at hr
              · injection hr with h1 h2
                exact Or.inl ⟨h1.symm, _, h2.symm⟩
              · split at hr
                · injection hr with h1 h2
                  refine Or.inr (Or.inr ⟨?_, Or.inl ⟨hcadd, user1, user2, heq,
                    by rw [← h2]; rfl⟩⟩)
                  intro hc
                  have hstore := congrArg State.store h1
                  rw [hc] at hstore
                  have hlen := congrArg List.length hstore
                  simp at hlen
                · injection hr with h1 h2
                  exact Or.inr (Or.inl ⟨h1.symm, h2.symm⟩)
        · injection hr with h1 h2
          exact Or.inl ⟨h1.symm, _, h2.symm⟩
      · rename_i hna1
        split at hr
        · -- /twinlunch-remove
          rename_i hcrem
          split at hr
          · rename_i user1 user2 heq
            split at hr
            · injection hr with h1 h2
              exact Or.inl ⟨h1.symm, _, h2.symm⟩
            · split at hr
              · split at hr
                · injection hr with h1 h2
                  exact Or.inr (Or.inl ⟨h1.symm, h2.symm⟩)
                · rename_i st3 hrec
                  injection hr with h1 h2
                  refine Or.inr (Or.inr ⟨?_, Or.inr (Or.inl ⟨hcrem, user1, user2, heq,
                    h2.symm⟩)⟩)
                  intro hc
                  have hlen := removeRecord_length user1 s.store st3 hrec
                  have hstore := congrArg State.store h1
                  rw [hc] at hstore
                  have hst3 : st3 = s.store := hstore
                  rw [hst3] at hlen
                  omega
              · injection hr with h1 h2
                exact Or.inr (Or.inl ⟨h1.symm, h2.symm⟩)
          · injection hr with h1 h2
            exact Or.inl ⟨h1.symm, _, h2.symm⟩
        · rename_i hna2
          split at hr
          · -- /twinlunch-list
            split at hr
            · injection hr with h1 h2
              exact Or.inl ⟨h1.symm, _, h2.symm⟩
            · injection hr with h1 h2
              exact Or.inl ⟨h1.symm, _, h2.symm⟩
          · rename_i hna3
            split at hr
            · -- /twinlunch-clear
              rename_i hcclear
              split at hr
              · injection hr with h1 h2
                by_cases hempty : s = (⟨[], []⟩ : State)
                · exact Or.inl ⟨h1.symm.trans hempty.symm, _, h2.symm⟩
                · refine Or.inr (Or.inr ⟨?_, Or.inr (Or.inr ⟨hcclear, h2.symm⟩)⟩)
                  intro hc
                  exact hempty ((h1.trans hc).symm)
              · injection hr with h1 h2
                exact Or.inr (Or.inl ⟨h1.symm, h2.symm⟩)
            · rename_i hna4
              exfalso
              simp only [List.mem_cons, List.not_mem_nil, or_false] at hCmd4
              rcases hCmd4 with h | h | h | h
              · exact hna1 h
              · exact hna2 h
              · exact hna3 h
              · exact hna4 h
    · rename_i hna
      exact absurd hAdm hna
  · -- add: every parse/validation failure keeps the state and emits its notice
    intro hcadd
    refine ⟨?_, ?_, ?_, ?_⟩
    · intro hnp
      exact runCommand_add_needtwo ok hAdm hcadd hnp
    · intro a hp
      exact runCommand_add_same ok hAdm hcadd hp
    · intro a b hp hne hsome
      exact runCommand_add_already1 ok hAdm hcadd hp hne hsome
    · intro a b hp hne hnone hsome
      exact runCommand_add_already2 ok hAdm hcadd hp hne hnone hsome
  · -- remove: every parse/validation failure keeps the state and emits its notice
    intro hcrem
    refine ⟨?_, ?_⟩
    · intro hnp
      exact runCommand_remove_needtwo ok hAdm hcrem hnp
    · intro a b hp hget
      exact runCommand_remove_notpaired ok hAdm hcrem hp hget

theorem interpreter_branch_notices_witness :
    ((runCommand ["A"] true ⟨pairsOfStore [⟨"U1", "U2"⟩], [⟨"U1", "U2"⟩]⟩
        ⟨"A", "/twinlunch-clear", ""⟩).1 =
          ⟨pairsOfStore [⟨"U1", "U2"⟩], [⟨"U1", "U2"⟩]⟩ ∧
      ∃ t, (runCommand ["A"] true ⟨pairsOfStore [⟨"U1", "U2"⟩], [⟨"U1", "U2"⟩]⟩
        ⟨"A", "/twinlunch-clear", ""⟩).2 = [sendBotMessageToUser "A" t]) ∨
    ((runCommand ["A"] true ⟨pairsOfStore [⟨"U1", "U2"⟩], [⟨"U1", "U2"⟩]⟩
        ⟨"A", "/twinlunch-clear", ""⟩).1 =
          ⟨pairsOfStore [⟨"U1", "U2"⟩], [⟨"U1", "U2"⟩]⟩ ∧
      (runCommand ["A"] true ⟨pairsOfStore [⟨"U1", "U2"⟩], [⟨"U1", "U2"⟩]⟩
        ⟨"A", "/twinlunch-clear", ""⟩).2 = []) ∨
    ((runCommand ["A"] true ⟨pairsOfStore [⟨"U1", "U2"⟩], [⟨"U1", "U2"⟩]⟩
        ⟨"A", "/twinlunch-clear", ""⟩).1 ≠
          ⟨pairsOfStore [⟨"U1", "U2"⟩], [⟨"U1", "U2"⟩]⟩ ∧
      ((("/twinlunch-clear" : String) = "/twinlunch-add" ∧
          ∃ a b, findMentions "" = [a, b] ∧
          ((runCommand ["A"] true ⟨pairsOfStore [⟨"U1", "U2"⟩], [⟨"U1", "U2"⟩]⟩
            ⟨"A", "/twinlunch-clear", ""⟩).2).getLast? =
              some (sendBotMessageToUser "A" (addConfirmText a b))) ∨
       (("/twinlunch-clear" : String) = "/twinlunch-remove" ∧
          ∃ a b, findMentions "" = [a, b] ∧
          (runCommand ["A"] true ⟨pairsOfStore [⟨"U1", "U2"⟩], [⟨"U1", "U2"⟩]⟩
            ⟨"A", "/twinlunch-clear", ""⟩).2 =
              [sendBotMessageToUser "A" (removeConfirmText a b)]) ∨
       (("/twinlunch-clear" : String) = "/twinlunch-clear" ∧
          (runCommand ["A"] true ⟨pairsOfStore [⟨"U1", "U2"⟩], [⟨"U1", "U2"⟩]⟩
            ⟨"A", "/twinlunch-clear", ""⟩).2 =
              [sendBotMessageToUser "A" clearConfirmText]))) :=
  (interpreter_branch_notices ["A"] true
    ⟨pairsOfStore [⟨"U1", "U2"⟩], [⟨"U1", "U2"⟩]⟩
    ⟨"A", "/twinlunch-clear", ""⟩ (by decide)).1 (by decide)

/-- C10: the dispatch has no default branch, so an authorized admin issuing a
command whose name is none of the four `/twinlunch-*` commands gets no
outbound message at all and causes no registry or durable-store mutation. -/
theorem unknown_command_spec (admins : List String) (ok : Bool) (s : State)
    (c : SlashCommand) (hAdm : c.userID ∈ admins)
    (h : c.command ∉ ["/twinlunch-add", "/twinlunch-remove", "/twinlunch-list",
      "/twinlunch-clear"]) :
    runCommand admins ok s c = (s, []) := by
  refine runCommand_unknown ok hAdm ?_ ?_ ?_ ?_ <;>
    (intro hc; apply h; rw [hc]; simp)

theorem unknown_command_spec_witness :
    runCommand ["A"] true ⟨[], []⟩ ⟨"A", "/frobnicate", "<@U1|u> <@U2|v>"⟩ =
      (⟨[], []⟩, []) :=
  unknown_command_spec ["A"] true ⟨[], []⟩ ⟨"A", "/frobnicate", "<@U1|u> <@U2|v>"⟩
    (by decide) (by decide)

end TwinLunchBot
